import Mathlib

set_option autoImplicit false

/-!
Verification of the tondi-graph-inspector processing pipeline.

The definitions below are a shallow embedding of the Rust sources:
database/model.rs (row types), database/operations.rs (the persistence
layer with its block-identity cache), processing/batch.rs (the dependency
batch) and processing/mod.rs (single-block processing and the
virtual-chain-changed handler).

Database state is modelled explicitly: a Store holds the four tables and
the id sequence, a Cache models the in-memory LRU block-base cache, and
every operation is a function threading a DbState (store plus cache)
while possibly failing, mirroring that in the source the cache is a
shared in-memory structure mutated in place even when the surrounding
transaction later rolls back.
-/

namespace TGI

/-- Color constant from database/model.rs. -/
def COLOR_GRAY : String := "gray"

/-- Color constant from database/model.rs. -/
def COLOR_RED : String := "red"

/-- Color constant from database/model.rs. -/
def COLOR_BLUE : String := "blue"

/-- A row of the blocks table (database/model.rs, struct Block). -/
structure Block where
  id : Nat
  block_hash : String
  timestamp : Int
  parent_ids : List Nat
  daa_score : Nat
  height : Nat
  height_group_index : Nat
  selected_parent_id : Option Nat
  color : String
  is_in_virtual_selected_parent_chain : Bool
  merge_set_red_ids : List Nat
  merge_set_blue_ids : List Nat
  deriving DecidableEq, Inhabited

/-- A row of the edges table (database/model.rs, struct Edge). -/
structure Edge where
  from_block_id : Nat
  to_block_id : Nat
  from_height : Nat
  to_height : Nat
  from_height_group_index : Nat
  to_height_group_index : Nat
  deriving DecidableEq, Inhabited

/-- A row of the height_groups table (database/model.rs, struct HeightGroup). -/
structure HeightGroup where
  height : Nat
  size : Nat
  deriving DecidableEq, Inhabited

/-- The singleton app_config row (database/model.rs, struct AppConfig). -/
structure AppConfig where
  id : Bool
  tondid_version : String
  processing_version : String
  network : String
  deriving DecidableEq, Inhabited

/-- In-memory cache entry (operations.rs, struct BlockBase). -/
structure BlockBase where
  id : Nat
  height : Nat
  deriving DecidableEq, Inhabited

/-- operations.rs, BLOCK_BASE_CACHE_CAPACITY. -/
def BLOCK_BASE_CACHE_CAPACITY : Nat := 400000

/-- The block-base LRU cache, most recently inserted first.  lru::LruCache
is modelled as an association list kept in recency order: peek does not
touch recency, put moves or inserts its key at the front and drops the
least recently used entry once the capacity is exceeded. -/
abbrev Cache := List (String × BlockBase)

/-- LruCache::peek - a non-mutating lookup (first matching key). -/
def cachePeek : Cache → String → Option BlockBase
  | [], _ => none
  | e :: rest, h => if e.1 == h then some e.2 else cachePeek rest h

/-- LruCache::put - insert or replace the entry at the most-recent
position, evicting beyond capacity. -/
def cachePut (c : Cache) (h : String) (b : BlockBase) : Cache :=
  ((h, b) :: c.filter (fun e => e.1 != h)).take BLOCK_BASE_CACHE_CAPACITY

/-- The persistent side: the four tables plus the id sequence backing the
bigserial blocks.id column. -/
structure Store where
  blocks : List Block
  next_id : Nat
  edges : List Edge
  height_groups : List HeightGroup
  app_config : Option AppConfig
  deriving DecidableEq, Inhabited

/-- Single-row lookup by block_hash (first matching row). -/
def Store.blockByHash (st : Store) (h : String) : Option Block :=
  st.blocks.find? (fun b => b.block_hash == h)

/-- Single-row lookup by id (first matching row). -/
def Store.blockById (st : Store) (i : Nat) : Option Block :=
  st.blocks.find? (fun b => b.id == i)

/-- Whether a blocks row with the given hash exists. -/
def Store.hasBlockHash (st : Store) (h : String) : Bool :=
  (st.blockByHash h).isSome

/-- The full state a database operation acts on: persistent store plus the
shared in-memory cache. -/
structure DbState where
  store : Store
  cache : Cache
  deriving DecidableEq, Inhabited

/-- Failures surfaced by the persistence layer or by a node call made
inside a database computation; all are carried by anyhow::Error in the
source. -/
inductive DbError where
  | notFound : String → DbError
  | uniqueViolation : String → DbError
  | rpcError : String → DbError
  deriving DecidableEq

/-- A database computation: threads the DbState and may fail.  The state is
returned even on failure because in the source the cache is mutated in
place while store changes live inside the transaction. -/
def DbM (α : Type) : Type := DbState → Except DbError α × DbState

/-- Monadic return for DbM. -/
def DbM.pure {α : Type} (a : α) : DbM α := fun s => (Except.ok a, s)

/-- Monadic bind for DbM: on failure the error is propagated and the state
reached so far is kept. -/
def DbM.bind {α β : Type} (m : DbM α) (k : α → DbM β) : DbM β := fun s =>
  match m s with
  | (Except.ok a, s1) => k a s1
  | (Except.error e, s1) => (Except.error e, s1)

instance : Monad DbM where
  pure := DbM.pure
  bind := DbM.bind

/-- Fail with a database error. -/
def DbM.fail {α : Type} (e : DbError) : DbM α := fun s => (Except.error e, s)

/-- Apply a pure change to the store. -/
def DbM.modifyStore (f : Store → Store) : DbM Unit := fun s =>
  (Except.ok (), { s with store := f s.store })

/-- Result::unwrap_or_default on a database call: the error is dropped and
the default value returned, keeping state changes made before the failure. -/
def DbM.orDefault {α : Type} (m : DbM α) (d : α) : DbM α := fun s =>
  match m s with
  | (Except.ok a, s1) => (Except.ok a, s1)
  | (Except.error _, s1) => (Except.ok d, s1)

/-- operations.rs, Database::does_block_exist: peek the cache; on a miss do
a single-row lookup and populate the cache on a hit. -/
def does_block_exist (h : String) : DbM Bool := fun s =>
  match cachePeek s.cache h with
  | some _ => (Except.ok true, s)
  | none =>
    match s.store.blockByHash h with
    | some row =>
      (Except.ok true,
        { s with cache := cachePut s.cache h { id := row.id, height := row.height } })
    | none => (Except.ok false, s)

/-- operations.rs, Database::insert_block: INSERT returning the assigned
id, then populate the cache with it.  The unique constraint on block_hash
makes the insert fail when the hash is already stored. -/
def insert_block (h : String) (b : Block) : DbM Unit := fun s =>
  if s.store.hasBlockHash b.block_hash then
    (Except.error (DbError.uniqueViolation b.block_hash), s)
  else
    let assigned := s.store.next_id
    (Except.ok (),
      { store := { s.store with
          blocks := s.store.blocks ++ [{ b with id := assigned }],
          next_id := assigned + 1 },
        cache := cachePut s.cache h { id := assigned, height := b.height } })

/-- operations.rs, Database::block_id_by_hash: cache-first id lookup,
populating the cache from the row on a database hit. -/
def block_id_by_hash (h : String) : DbM Nat := fun s =>
  match cachePeek s.cache h with
  | some bb => (Except.ok bb.id, s)
  | none =>
    match s.store.blockByHash h with
    | some row =>
      (Except.ok row.id,
        { s with cache := cachePut s.cache h { id := row.id, height := row.height } })
    | none => (Except.error (DbError.notFound h), s)

/-- operations.rs, Database::block_height_by_hash: cache-first height
lookup, populating the cache from the row on a database hit. -/
def block_height_by_hash (h : String) : DbM Nat := fun s =>
  match cachePeek s.cache h with
  | some bb => (Except.ok bb.height, s)
  | none =>
    match s.store.blockByHash h with
    | some row =>
      (Except.ok row.height,
        { s with cache := cachePut s.cache h { id := row.id, height := row.height } })
    | none => (Except.error (DbError.notFound h), s)

/-- operations.rs, Database::block_ids_by_hashes: sequential per-hash id
lookups, in input order. -/
def block_ids_by_hashes (hs : List String) : DbM (List Nat) :=
  match hs with
  | [] => DbM.pure []
  | h :: rest =>
    DbM.bind (block_id_by_hash h) (fun i =>
      DbM.bind (block_ids_by_hashes rest) (fun rest_ids =>
        DbM.pure (i :: rest_ids)))

/-- operations.rs, Database::block_ids_and_heights_by_hashes: sequential
per-hash id and height lookups, in input order. -/
def block_ids_and_heights_by_hashes (hs : List String) : DbM (List Nat × List Nat) :=
  match hs with
  | [] => DbM.pure ([], [])
  | h :: rest =>
    DbM.bind (block_id_by_hash h) (fun i =>
      DbM.bind (block_height_by_hash h) (fun ht =>
        DbM.bind (block_ids_and_heights_by_hashes rest) (fun p =>
          DbM.pure (i :: p.1, ht :: p.2))))

/-- operations.rs, Database::update_block_selected_parent: UPDATE the row
with the given id. -/
def update_block_selected_parent (block_id selected_parent_id : Nat) : DbM Unit :=
  DbM.modifyStore (fun st =>
    { st with blocks := st.blocks.map (fun b =>
        if b.id == block_id then { b with selected_parent_id := some selected_parent_id } else b) })

/-- operations.rs, Database::update_block_merge_set: UPDATE both merge-set
columns of the row with the given id. -/
def update_block_merge_set (block_id : Nat) (red_ids blue_ids : List Nat) : DbM Unit :=
  DbM.modifyStore (fun st =>
    { st with blocks := st.blocks.map (fun b =>
        if b.id == block_id then
          { b with merge_set_red_ids := red_ids, merge_set_blue_ids := blue_ids }
        else b) })

/-- operations.rs, Database::update_block_is_in_virtual_selected_parent_chain:
one UPDATE per (id, flag) pair, in list order. -/
def update_block_is_in_virtual_selected_parent_chain (ps : List (Nat × Bool)) : DbM Unit :=
  DbM.modifyStore (fun st =>
    ps.foldl (fun acc p =>
      { acc with blocks := acc.blocks.map (fun b =>
          if b.id == p.1 then { b with is_in_virtual_selected_parent_chain := p.2 } else b) }) st)

/-- operations.rs, Database::update_block_colors: one UPDATE per
(id, color) pair, in list order. -/
def update_block_colors (ps : List (Nat × String)) : DbM Unit :=
  DbM.modifyStore (fun st =>
    ps.foldl (fun acc p =>
      { acc with blocks := acc.blocks.map (fun b =>
          if b.id == p.1 then { b with color := p.2 } else b) }) st)

/-- First height_groups row with the given height (primary-key lookup). -/
def hgLookup : List HeightGroup → Nat → Option HeightGroup
  | [], _ => none
  | g :: rest, h => if g.height == h then some g else hgLookup rest h

/-- Size of the height group at the given height, 0 when the row is absent. -/
def Store.heightGroupSize (st : Store) (height : Nat) : Nat :=
  match hgLookup st.height_groups height with
  | some g => g.size
  | none => 0

/-- operations.rs, Database::height_group_size: size of the height group
row, 0 when the row is absent. -/
def height_group_size (height : Nat) : DbM Nat := fun s =>
  (Except.ok (s.store.heightGroupSize height), s)

/-- operations.rs, Database::block_height: height column of the row with
the given id; query_one fails when the row is missing. -/
def block_height (block_id : Nat) : DbM Nat := fun s =>
  match s.store.blockById block_id with
  | some row => (Except.ok row.height, s)
  | none => (Except.error (DbError.notFound (toString block_id)), s)

/-- operations.rs, Database::block_height_group_index: height_group_index
column of the row with the given id; query_one fails when missing. -/
def block_height_group_index (block_id : Nat) : DbM Nat := fun s =>
  match s.store.blockById block_id with
  | some row => (Except.ok row.height_group_index, s)
  | none => (Except.error (DbError.notFound (toString block_id)), s)

/-- operations.rs, Database::insert_edge: INSERT with ON CONFLICT
(from_block_id, to_block_id) DO NOTHING. -/
def insert_edge (e : Edge) : DbM Unit :=
  DbM.modifyStore (fun st =>
    if st.edges.any (fun e2 => e2.from_block_id == e.from_block_id && e2.to_block_id == e.to_block_id)
    then st
    else { st with edges := st.edges ++ [e] })

/-- ON CONFLICT (height) DO UPDATE SET size: rewrite the existing row or
append a new one. -/
def Store.upsertHeightGroup (st : Store) (hg : HeightGroup) : Store :=
  if (hgLookup st.height_groups hg.height).isSome then
    { st with height_groups := st.height_groups.map (fun g =>
        if g.height == hg.height then { g with size := hg.size } else g) }
  else { st with height_groups := st.height_groups ++ [hg] }

/-- operations.rs, Database::insert_or_update_height_group: upsert keyed on
height. -/
def insert_or_update_height_group (hg : HeightGroup) : DbM Unit :=
  DbM.modifyStore (fun st => st.upsertHeightGroup hg)

/-- operations.rs, Database::store_app_config: upsert of the singleton row. -/
def store_app_config (cfg : AppConfig) : DbM Unit :=
  DbM.modifyStore (fun st => { st with app_config := some cfg })

/-- operations.rs, Database::clear: clear the cache, then TRUNCATE blocks,
edges and height_groups.  The app_config table is not touched. -/
def clear : DbM Unit := fun s =>
  (Except.ok (),
    { store := { s.store with blocks := [], edges := [], height_groups := [] },
      cache := [] })

/-- operations.rs, Database::load_cache: clear the cache and repopulate it
from every stored block at or above min_height. -/
def load_cache (min_height : Nat) : DbM Unit := fun s =>
  let rows := s.store.blocks.filter (fun b => decide (min_height ≤ b.height))
  (Except.ok (),
    { s with cache := rows.foldl (fun c b => cachePut c b.block_hash { id := b.id, height := b.height }) [] })

/-- operations.rs, Database::run_in_transaction: run f inside a
transaction, committing on success.  On failure the error propagates, the
transaction is dropped un-committed so the store reverts to its state at
transaction begin, while the in-memory cache keeps whatever f put in it. -/
def run_in_transaction {α : Type} (f : DbM α) : DbM α := fun s =>
  match f s with
  | (Except.ok a, s1) => (Except.ok a, s1)
  | (Except.error e, s1) => (Except.error e, { store := s.store, cache := s1.cache })

/-- operations.rs, Database::find_latest_stored_block_index, the while
loop: binary search over the hash sequence, written with fuel (the fuel is
never exhausted, see the lemmas below). -/
def flsbLoop (hashes : List String) (fuel low high : Nat) : DbM Nat :=
  match fuel with
  | 0 => DbM.pure low
  | Nat.succ fuel =>
    if high - low > 1 then
      DbM.bind (does_block_exist (hashes.getD ((high + low) / 2) "")) (fun has_block =>
        if has_block then flsbLoop hashes fuel ((high + low) / 2) high
        else flsbLoop hashes fuel low ((high + low) / 2))
    else DbM.pure low

/-- operations.rs, Database::find_latest_stored_block_index: binary search
starting from low = 0, high = hashes.len(). -/
def find_latest_stored_block_index (hashes : List String) : DbM Nat :=
  flsbLoop hashes (hashes.length + 1) 0 hashes.length

/-- Every cache entry is backed by the stored row with the same hash: the
cache holds no phantom data. -/
def CacheCoherent (s : DbState) : Prop :=
  ∀ e, e ∈ s.cache →
    ∃ row, s.store.blockByHash e.1 = some row ∧ row.id = e.2.id ∧ row.height = e.2.height

theorem mem_of_cachePeek {c : Cache} {h : String} {bb : BlockBase}
    (hp : cachePeek c h = some bb) : (h, bb) ∈ c := by
  induction c with
  | nil => cases hp
  | cons e rest ih =>
    by_cases hb : (e.1 == h) = true
    · rw [cachePeek, if_pos hb] at hp
      injection hp with hp
      obtain ⟨e1, e2⟩ := e
      simp only at hb hp
      subst hp
      have he1 : e1 = h := beq_iff_eq.mp hb
      subst he1
      exact List.mem_cons_self _ _
    · rw [cachePeek, if_neg hb] at hp
      exact List.mem_cons_of_mem e (ih hp)

theorem mem_cachePut {c : Cache} {h : String} {b : BlockBase} {e : String × BlockBase}
    (he : e ∈ cachePut c h b) : e = (h, b) ∨ e ∈ c := by
  unfold cachePut at he
  have hin := List.take_subset BLOCK_BASE_CACHE_CAPACITY _ he
  rcases List.mem_cons.mp hin with h1 | h1
  · exact Or.inl h1
  · exact Or.inr (List.mem_of_mem_filter h1)

/-- Putting a store-backed entry preserves cache coherence. -/
theorem cacheCoherent_put {s : DbState} {h : String} {bb : BlockBase} {row : Block}
    (hc : CacheCoherent s) (hrow : s.store.blockByHash h = some row)
    (hid : row.id = bb.id) (hht : row.height = bb.height) :
    CacheCoherent { s with cache := cachePut s.cache h bb } := by
  intro e he
  rcases mem_cachePut he with rfl | he2
  · exact ⟨row, hrow, hid, hht⟩
  · exact hc e he2

/-- The empty cache is coherent with any store. -/
theorem cacheCoherent_nil (st : Store) : CacheCoherent { store := st, cache := [] } := by
  intro e he
  simp at he

/-- Under a coherent cache, does_block_exist returns exactly whether the
row exists in the store; the store is unchanged and coherence preserved. -/
theorem does_block_exist_spec (h : String) (s : DbState) (hc : CacheCoherent s) :
    (does_block_exist h s).1 = Except.ok (s.store.hasBlockHash h) ∧
    (does_block_exist h s).2.store = s.store ∧
    CacheCoherent (does_block_exist h s).2 := by
  unfold does_block_exist
  rcases hp : cachePeek s.cache h with _ | bb
  · rcases hr : s.store.blockByHash h with _ | row
    · simp only [hp, hr]
      exact ⟨by simp [Store.hasBlockHash, hr], by simp, hc⟩
    · simp only [hp, hr]
      exact ⟨by simp [Store.hasBlockHash, hr], by simp, cacheCoherent_put hc hr rfl rfl⟩
  · obtain ⟨row, hrow, _, _⟩ := hc (h, bb) (mem_of_cachePeek hp)
    simp only [hp]
    exact ⟨by simp [Store.hasBlockHash, hrow], by simp, hc⟩

/-- Under a coherent cache, block_id_by_hash returns the id of the stored
row with that hash, or notFound when absent; the store is unchanged and
coherence preserved. -/
theorem block_id_by_hash_spec (h : String) (s : DbState) (hc : CacheCoherent s) :
    (block_id_by_hash h s).1 = (match s.store.blockByHash h with
      | some row => Except.ok row.id
      | none => Except.error (DbError.notFound h)) ∧
    (block_id_by_hash h s).2.store = s.store ∧
    CacheCoherent (block_id_by_hash h s).2 := by
  unfold block_id_by_hash
  rcases hp : cachePeek s.cache h with _ | bb
  · rcases hr : s.store.blockByHash h with _ | row
    · simp only [hp, hr]
      exact ⟨by simp [hr], by simp, hc⟩
    · simp only [hp, hr]
      exact ⟨by simp [hr], by simp, cacheCoherent_put hc hr rfl rfl⟩
  · obtain ⟨row, hrow, hid, _⟩ := hc (h, bb) (mem_of_cachePeek hp)
    simp only [hp]
    exact ⟨by simp [hrow, hid], by simp, hc⟩

/-- Under a coherent cache, block_height_by_hash returns the height of the
stored row with that hash, or notFound when absent; the store is unchanged
and coherence preserved. -/
theorem block_height_by_hash_spec (h : String) (s : DbState) (hc : CacheCoherent s) :
    (block_height_by_hash h s).1 = (match s.store.blockByHash h with
      | some row => Except.ok row.height
      | none => Except.error (DbError.notFound h)) ∧
    (block_height_by_hash h s).2.store = s.store ∧
    CacheCoherent (block_height_by_hash h s).2 := by
  unfold block_height_by_hash
  rcases hp : cachePeek s.cache h with _ | bb
  · rcases hr : s.store.blockByHash h with _ | row
    · simp only [hp, hr]
      exact ⟨by simp [hr], by simp, hc⟩
    · simp only [hp, hr]
      exact ⟨by simp [hr], by simp, cacheCoherent_put hc hr rfl rfl⟩
  · obtain ⟨row, hrow, _, hht⟩ := hc (h, bb) (mem_of_cachePeek hp)
    simp only [hp]
    exact ⟨by simp [hrow, hht], by simp, hc⟩

/-- Invariant-carrying specification of the binary-search loop of
find_latest_stored_block_index: with enough fuel and a coherent cache the
loop succeeds and returns an index r bracketed so that, under monotone
existence, r is the last stored index. -/
theorem flsbLoop_spec (hashes : List String) (st : Store) :
    ∀ (fuel low high : Nat) (s : DbState), s.store = st → CacheCoherent s →
    high - low ≤ fuel + 1 → low < high → high ≤ hashes.length →
    (low = 0 ∨ st.hasBlockHash (hashes.getD low "") = true) →
    (high = hashes.length ∨ st.hasBlockHash (hashes.getD high "") = false) →
    ∃ r s1, flsbLoop hashes fuel low high s = (Except.ok r, s1) ∧
      (r = 0 ∨ st.hasBlockHash (hashes.getD r "") = true) ∧
      r + 1 ≤ hashes.length ∧
      (r + 1 = hashes.length ∨ st.hasBlockHash (hashes.getD (r + 1) "") = false) := by
  intro fuel
  induction fuel with
  | zero =>
    intro low high s _ _ hfuel hlh hhn hlow hhigh
    refine ⟨low, s, rfl, hlow, by omega, ?_⟩
    have hh : high = low + 1 := by omega
    rw [← hh]
    exact hhigh
  | succ fuel ih =>
    intro low high s hs hc hfuel hlh hhn hlow hhigh
    by_cases hif : high - low > 1
    · have hcur1 : low < (high + low) / 2 := by omega
      have hcur2 : (high + low) / 2 < high := by omega
      rcases he : does_block_exist (hashes.getD ((high + low) / 2) "") s with ⟨v, s1⟩
      have hspec := does_block_exist_spec (hashes.getD ((high + low) / 2) "") s hc
      rw [he] at hspec
      obtain ⟨hv, hs1, hc1⟩ := hspec
      simp only at hv hs1
      rw [hs] at hv
      cases hb : st.hasBlockHash (hashes.getD ((high + low) / 2) "") with
      | true =>
        obtain ⟨r, s2, heq, hr1, hr2, hr3⟩ :=
          ih ((high + low) / 2) high s1 (hs1.trans hs) hc1 (by omega) hcur2 hhn
            (Or.inr hb) hhigh
        refine ⟨r, s2, ?_, hr1, hr2, hr3⟩
        show flsbLoop hashes (Nat.succ fuel) low high s = (Except.ok r, s2)
        rw [flsbLoop, if_pos hif]
        show DbM.bind _ _ s = (Except.ok r, s2)
        rw [DbM.bind, he, hv, hb]
        exact heq
      | false =>
        obtain ⟨r, s2, heq, hr1, hr2, hr3⟩ :=
          ih low ((high + low) / 2) s1 (hs1.trans hs) hc1 (by omega) hcur1
            (by omega) hlow (Or.inr hb)
        refine ⟨r, s2, ?_, hr1, hr2, hr3⟩
        show flsbLoop hashes (Nat.succ fuel) low high s = (Except.ok r, s2)
        rw [flsbLoop, if_pos hif]
        show DbM.bind _ _ s = (Except.ok r, s2)
        rw [DbM.bind, he, hv, hb]
        exact heq
    · refine ⟨low, s, ?_, hlow, by omega, ?_⟩
      · rw [flsbLoop, if_neg hif]
        rfl
      · have hh : high = low + 1 := by omega
        rw [← hh]
        exact hhigh

/-- C1: for a hash sequence whose store existence is monotone (stored
hashes precede absent ones), find_latest_stored_block_index returns the
highest index whose hash is stored, and 0 when no hash is stored. -/
theorem C1_find_latest_stored_block_index (hashes : List String) (s : DbState)
    (hc : CacheCoherent s)
    (mono : ∀ j, j < hashes.length → ∀ i, i ≤ j →
      s.store.hasBlockHash (hashes.getD j "") = true →
      s.store.hasBlockHash (hashes.getD i "") = true) :
    ∃ r s1, find_latest_stored_block_index hashes s = (Except.ok r, s1) ∧
      ((∃ i, i < hashes.length ∧ s.store.hasBlockHash (hashes.getD i "") = true) →
        r < hashes.length ∧ s.store.hasBlockHash (hashes.getD r "") = true ∧
        ∀ j, j < hashes.length → s.store.hasBlockHash (hashes.getD j "") = true → j ≤ r) ∧
      ((∀ i, i < hashes.length → s.store.hasBlockHash (hashes.getD i "") = false) → r = 0) := by
  unfold find_latest_stored_block_index
  by_cases hn : hashes.length = 0
  · refine ⟨0, s, ?_, ?_, fun _ => rfl⟩
    · rw [hn]
      rw [flsbLoop]
      norm_num
      rfl
    · rintro ⟨i, hi, _⟩
      omega
  · have hlen : 0 < hashes.length := Nat.pos_of_ne_zero hn
    obtain ⟨r, s1, heq, hr1, hr2, hr3⟩ :=
      flsbLoop_spec hashes s.store (hashes.length + 1) 0 hashes.length s rfl hc
        (by omega) hlen le_rfl (Or.inl rfl) (Or.inl rfl)
    refine ⟨r, s1, heq, ?_, ?_⟩
    · rintro ⟨i, hi, hex⟩
      have hall : ∀ j, j < hashes.length →
          s.store.hasBlockHash (hashes.getD j "") = true → j ≤ r := by
        intro j hj hexj
        by_contra hgt
        push_neg at hgt
        rcases hr3 with h3 | h3
        · omega
        · have hup := mono j hj (r + 1) (by omega) hexj
          rw [hup] at h3
          cases h3
      refine ⟨by omega, ?_, hall⟩
      rcases hr1 with rfl | hex_r
      · have hi0 : i ≤ 0 := hall i hi hex
        have : i = 0 := by omega
        subst this
        exact hex
      · exact hex_r
    · intro hnone
      rcases hr1 with rfl | hex_r
      · rfl
      · have hrn : r < hashes.length := by omega
        rw [hnone r hrn] at hex_r
        cases hex_r

/-- A block row with only id, hash and height varying, used in concrete
scenarios. -/
def mkRow (i : Nat) (h : String) (ht : Nat) : Block :=
  { id := i, block_hash := h, timestamp := 0, parent_ids := [], daa_score := 0,
    height := ht, height_group_index := 0, selected_parent_id := none,
    color := COLOR_GRAY, is_in_virtual_selected_parent_chain := false,
    merge_set_red_ids := [], merge_set_blue_ids := [] }

/-- Concrete hash sequence for the C1 witness: the first three hashes are
stored, the last two are not. -/
def c1Hashes : List String := ["a", "b", "c", "d", "e"]

/-- Concrete store for the C1 witness. -/
def c1Store : Store :=
  { blocks := [mkRow 1 "a" 0, mkRow 2 "b" 1, mkRow 3 "c" 2], next_id := 4,
    edges := [], height_groups := [], app_config := none }

/-- Witness for C1: on a concrete five-hash sequence with the first three
stored, the hypotheses hold and the search returns the last stored index. -/
theorem C1_witness :
    CacheCoherent { store := c1Store, cache := [] } ∧
    (∀ j, j < c1Hashes.length → ∀ i, i ≤ j →
      c1Store.hasBlockHash (c1Hashes.getD j "") = true →
      c1Store.hasBlockHash (c1Hashes.getD i "") = true) ∧
    (∃ r s1,
      find_latest_stored_block_index c1Hashes { store := c1Store, cache := [] } =
        (Except.ok r, s1) ∧
      ((∃ i, i < c1Hashes.length ∧ c1Store.hasBlockHash (c1Hashes.getD i "") = true) →
        r < c1Hashes.length ∧ c1Store.hasBlockHash (c1Hashes.getD r "") = true ∧
        ∀ j, j < c1Hashes.length → c1Store.hasBlockHash (c1Hashes.getD j "") = true → j ≤ r) ∧
      ((∀ i, i < c1Hashes.length → c1Store.hasBlockHash (c1Hashes.getD i "") = false) → r = 0)) :=
  ⟨cacheCoherent_nil c1Store, by decide,
    C1_find_latest_stored_block_index c1Hashes { store := c1Store, cache := [] }
      (cacheCoherent_nil c1Store) (by decide)⟩

/-- Number of edges rows with the given (from, to) pair. -/
def Store.edgeCount (st : Store) (f t : Nat) : Nat :=
  (st.edges.filter (fun e => e.from_block_id == f && e.to_block_id == t)).length

/-- A concrete app_config row used in concrete scenarios. -/
def cfgRow : AppConfig :=
  { id := true, tondid_version := "v1", processing_version := "p1", network := "tondi-mainnet" }

/-- Concrete populated state for the C5 counterexample. -/
def c5State : DbState :=
  { store := { blocks := [mkRow 1 "a" 0], next_id := 2, edges := [],
               height_groups := [{ height := 0, size := 1 }], app_config := some cfgRow },
    cache := [("a", { id := 1, height := 0 })] }

/-- Counterexample to C5 as stated: clear() leaves the app_config table
non-empty, so not all four tables are empty afterwards. -/
theorem C5_counterexample :
    (clear c5State).1 = Except.ok () ∧
    (clear c5State).2.store.app_config = some cfgRow ∧
    (clear c5State).2.store.app_config ≠ none := by
  refine ⟨rfl, rfl, ?_⟩
  decide

/-- C5 amended: after clear() the blocks, edges and height_groups tables
are empty and the cache is empty; the app_config table is left untouched. -/
theorem C5_clear_amended (s : DbState) :
    (clear s).1 = Except.ok () ∧
    (clear s).2.store.blocks = [] ∧
    (clear s).2.store.edges = [] ∧
    (clear s).2.store.height_groups = [] ∧
    (clear s).2.cache = [] ∧
    (clear s).2.store.app_config = s.store.app_config :=
  ⟨rfl, rfl, rfl, rfl, rfl, rfl⟩

/-- C8: under the uniqueness constraint on (from_block_id, to_block_id),
inserting the same edge twice succeeds both times and leaves exactly one
row with that pair. -/
theorem C8_insert_edge_idempotent (s : DbState) (e : Edge)
    (hinv : s.store.edgeCount e.from_block_id e.to_block_id ≤ 1) :
    ∃ s1 s2,
      insert_edge e s = (Except.ok (), s1) ∧
      insert_edge e s1 = (Except.ok (), s2) ∧
      s2.store.edgeCount e.from_block_id e.to_block_id = 1 := by
  by_cases hany : s.store.edges.any
      (fun e2 => e2.from_block_id == e.from_block_id && e2.to_block_id == e.to_block_id) = true
  · refine ⟨_, _, rfl, rfl, ?_⟩
    simp only [insert_edge, DbM.modifyStore, hany, if_pos]
    have hpos : 0 < s.store.edgeCount e.from_block_id e.to_block_id := by
      rw [List.any_eq_true] at hany
      obtain ⟨x, hx, hpx⟩ := hany
      unfold Store.edgeCount
      have : x ∈ s.store.edges.filter
          (fun e2 => e2.from_block_id == e.from_block_id && e2.to_block_id == e.to_block_id) :=
        List.mem_filter.mpr ⟨hx, hpx⟩
      exact List.length_pos.mpr (fun hnil => by rw [hnil] at this; cases this)
    omega
  · refine ⟨_, _, rfl, rfl, ?_⟩
    have hzero : s.store.edgeCount e.from_block_id e.to_block_id = 0 := by
      unfold Store.edgeCount
      rw [List.length_eq_zero, List.filter_eq_nil_iff]
      intro x hx
      intro hpx
      exact hany (List.any_eq_true.mpr ⟨x, hx, hpx⟩)
    have hself : (e.from_block_id == e.from_block_id && e.to_block_id == e.to_block_id) = true := by
      simp
    simp only [insert_edge, DbM.modifyStore, hany, if_neg, if_false, Bool.false_eq_true]
    have hany2 : ((s.store.edges ++ [e]).any
        (fun e2 => e2.from_block_id == e.from_block_id && e2.to_block_id == e.to_block_id)) = true :=
      List.any_eq_true.mpr ⟨e, by simp, hself⟩
    simp only [hany2, if_pos]
    unfold Store.edgeCount
    simp only [List.filter_append, List.length_append]
    unfold Store.edgeCount at hzero
    rw [hzero]
    simp [hself]

/-- Concrete state for the C8 witness: a single-block store with no edges. -/
def c8State : DbState :=
  { store := { blocks := [mkRow 1 "a" 0, mkRow 2 "b" 1], next_id := 3, edges := [],
               height_groups := [], app_config := none },
    cache := [] }

/-- Concrete edge for the C8 witness. -/
def c8Edge : Edge :=
  { from_block_id := 2, to_block_id := 1, from_height := 1, to_height := 0,
    from_height_group_index := 0, to_height_group_index := 0 }

/-- Witness for C8 at a concrete store and edge. -/
theorem C8_witness :
    c8State.store.edgeCount c8Edge.from_block_id c8Edge.to_block_id ≤ 1 ∧
    ∃ s1 s2,
      insert_edge c8Edge c8State = (Except.ok (), s1) ∧
      insert_edge c8Edge s1 = (Except.ok (), s2) ∧
      s2.store.edgeCount c8Edge.from_block_id c8Edge.to_block_id = 1 :=
  ⟨by decide, C8_insert_edge_idempotent c8State c8Edge (by decide)⟩

/-- C9: run_in_transaction commits exactly when the closure succeeds,
returning its result and state; on failure the error propagates and the
persistent store reverts to its state at transaction begin (the in-memory
cache keeps whatever the closure wrote). -/
theorem C9_run_in_transaction {α : Type} (f : DbM α) (s : DbState) :
    (∀ a s1, f s = (Except.ok a, s1) → run_in_transaction f s = (Except.ok a, s1)) ∧
    (∀ e s1, f s = (Except.error e, s1) →
      run_in_transaction f s = (Except.error e, { store := s.store, cache := s1.cache })) := by
  constructor
  · intro a s1 hf
    unfold run_in_transaction
    rw [hf]
  · intro e s1 hf
    unfold run_in_transaction
    rw [hf]

/-- A transaction closure that inserts a block and then fails. -/
def failTx : DbM Unit :=
  DbM.bind (insert_block "a" (mkRow 0 "a" 0)) (fun _ => DbM.fail (DbError.notFound "boom"))

/-- A transaction closure that inserts a block and succeeds. -/
def okTx : DbM Unit := insert_block "a" (mkRow 0 "a" 0)

/-- The empty database state. -/
def emptyState : DbState :=
  { store := { blocks := [], next_id := 1, edges := [], height_groups := [], app_config := none },
    cache := [] }

/-- The state okTx reaches from the empty state. -/
def okTxEnd : DbState :=
  { store := { blocks := [mkRow 1 "a" 0], next_id := 2, edges := [],
               height_groups := [], app_config := none },
    cache := [("a", { id := 1, height := 0 })] }

/-- Witness for C9: a succeeding closure is committed, and a failing
closure propagates its error while the store reverts (the cache keeps the
entry the closure wrote). -/
theorem C9_witness :
    (okTx emptyState = (Except.ok (), okTxEnd) ∧
      run_in_transaction okTx emptyState = (Except.ok (), okTxEnd)) ∧
    (failTx emptyState = (Except.error (DbError.notFound "boom"), okTxEnd) ∧
      run_in_transaction failTx emptyState =
        (Except.error (DbError.notFound "boom"),
          { store := emptyState.store, cache := okTxEnd.cache })) :=
  ⟨⟨by rfl, (C9_run_in_transaction okTx emptyState).1 () okTxEnd (by rfl)⟩,
   ⟨by rfl, (C9_run_in_transaction failTx emptyState).2 (DbError.notFound "boom") okTxEnd (by rfl)⟩⟩

/-- Counterexample to C6 as stated: after a rolled-back transaction that
inserted a block (populating the cache), does_block_exist reports the
block present although no row exists at the snapshot. -/
theorem C6_counterexample :
    (does_block_exist "a" (run_in_transaction failTx emptyState).2).1 = Except.ok true ∧
    (run_in_transaction failTx emptyState).2.store.hasBlockHash "a" = false := by
  constructor
  · rfl
  · decide

/-- C6 amended: provided the cache is coherent with the store (which a
rolled-back transaction that populated the cache violates),
does_block_exist returns true exactly when a blocks row with that hash
exists at the snapshot. -/
theorem C6_does_block_exist_amended (h : String) (s : DbState) (hc : CacheCoherent s) :
    (does_block_exist h s).1 = Except.ok (s.store.hasBlockHash h) ∧
    ((does_block_exist h s).1 = Except.ok true ↔ s.store.hasBlockHash h = true) := by
  obtain ⟨h1, _, _⟩ := does_block_exist_spec h s hc
  refine ⟨h1, ?_⟩
  rw [h1]
  simp

/-- Witness for C6 amended: on a coherent concrete state the equivalence
holds for a stored hash. -/
theorem C6_witness :
    CacheCoherent { store := c1Store, cache := [] } ∧
    ((does_block_exist "a" { store := c1Store, cache := [] }).1 =
      Except.ok (c1Store.hasBlockHash "a") ∧
     ((does_block_exist "a" { store := c1Store, cache := [] }).1 = Except.ok true ↔
      c1Store.hasBlockHash "a" = true)) :=
  ⟨cacheCoherent_nil c1Store,
    C6_does_block_exist_amended "a" { store := c1Store, cache := [] } (cacheCoherent_nil c1Store)⟩

/-- processing/batch.rs, MAX_SUPPORTED_MISSING_DEPENDENCIES. -/
def MAX_SUPPORTED_MISSING_DEPENDENCIES : Nat := 600

/-- get_block verbose data (tondi_rpc_core): selected parent hash, merge
sets and the header-only flag. -/
structure VerboseData where
  selected_parent_hash : String
  merge_set_blues_hashes : List String
  merge_set_reds_hashes : List String
  is_header_only : Bool
  deriving DecidableEq, Inhabited

/-- A node block (tondi_rpc_core RpcBlock) as the pipeline reads it: the
header hash, timestamp, daa_score and direct parent hashes, plus the
optional verbose data. -/
structure RpcBlock where
  hash : String
  timestamp : Int
  daa_score : Nat
  parents : List String
  verbose_data : Option VerboseData
  deriving DecidableEq, Inhabited

/-- HashMap lookup modelled on an association list (first match). -/
def assocLookup : List (String × Nat) → String → Option Nat
  | [], _ => none
  | e :: rest, k => if e.1 == k then some e.2 else assocLookup rest k

/-- HashMap::insert: replace or add the binding. -/
def assocInsert (l : List (String × Nat)) (k : String) (v : Nat) : List (String × Nat) :=
  (k, v) :: l.filter (fun e => e.1 != k)

/-- HashMap::remove: drop the binding. -/
def assocRemove (l : List (String × Nat)) (k : String) : List (String × Nat) :=
  l.filter (fun e => e.1 != k)

/-- processing/batch.rs, struct Batch: the ordered (hash, block) list, the
auxiliary hash-to-index map, and the optional pruning block bounding the
scope.  The database and rpc_client handles are passed to the collect
functions explicitly as an existence predicate and a node oracle. -/
structure Batch where
  blocks : List (String × RpcBlock)
  hashes : List (String × Nat)
  pruning_block : Option RpcBlock
  deriving DecidableEq, Inhabited

/-- processing/batch.rs, Batch::new. -/
def Batch.new (pruning_block : Option RpcBlock) : Batch :=
  { blocks := [], hashes := [], pruning_block := pruning_block }

/-- processing/batch.rs, Batch::in_scope: blocks below the pruning block
daa_score are out of scope. -/
def Batch.in_scope (b : Batch) (block : RpcBlock) : Bool :=
  match b.pruning_block with
  | some pruning => decide (pruning.daa_score ≤ block.daa_score)
  | none => true

/-- processing/batch.rs, Batch::has. -/
def Batch.has (b : Batch) (h : String) : Bool :=
  (assocLookup b.hashes h).isSome

/-- processing/batch.rs, Batch::add: append if not already present and in
scope, recording the index in the hash map. -/
def Batch.add (b : Batch) (h : String) (block : RpcBlock) : Batch :=
  if !b.has h && b.in_scope block then
    { b with hashes := assocInsert b.hashes h b.blocks.length,
             blocks := b.blocks ++ [(h, block)] }
  else b

/-- processing/batch.rs, Batch::empty. -/
def Batch.isEmptyB (b : Batch) : Bool :=
  b.blocks.isEmpty

/-- processing/batch.rs, Batch::pop: remove and return the last list entry,
dropping its hash from the map. -/
def Batch.pop (b : Batch) : Option ((String × RpcBlock) × Batch) :=
  match b.blocks.getLast? with
  | some e =>
    some (e, { b with blocks := b.blocks.dropLast, hashes := assocRemove b.hashes e.1 })
  | none => none

/-- processing/batch.rs, Batch::collect_direct_dependencies: for each
direct parent not in the store, fetch it from the node and add it; node
errors (block not found) are logged and skipped. -/
def collect_direct_dependencies (ex : String → Bool) (node : String → Option RpcBlock)
    (b : Batch) (block : RpcBlock) : Batch :=
  block.parents.foldl (fun acc parent_hash =>
    if ex parent_hash then acc
    else
      match node parent_hash with
      | some rpc_block => acc.add parent_hash rpc_block
      | none => acc) b

/-- Outcome of collect_block_and_dependencies.  outOfFuel marks fuel
exhaustion of the embedded loop and is proved unreachable. -/
inductive CollectResult where
  | ok : Batch → CollectResult
  | tooManyMissingDependencies : CollectResult
  | outOfFuel : CollectResult
  deriving DecidableEq, Inhabited

/-- processing/batch.rs, the while loop of collect_block_and_dependencies:
walk the list front to back, expanding each entry, failing once the list
exceeds MAX_SUPPORTED_MISSING_DEPENDENCIES. -/
def collectLoop (ex : String → Bool) (node : String → Option RpcBlock) :
    Nat → Nat → Batch → CollectResult
  | 0, _, _ => CollectResult.outOfFuel
  | Nat.succ fuel, i, b =>
    if i < b.blocks.length then
      let b1 := collect_direct_dependencies ex node b (b.blocks.getD i ("", default)).2
      if b1.blocks.length > MAX_SUPPORTED_MISSING_DEPENDENCIES then
        CollectResult.tooManyMissingDependencies
      else collectLoop ex node fuel (i + 1) b1
    else CollectResult.ok b

/-- processing/batch.rs, Batch::collect_block_and_dependencies. -/
def collect_block_and_dependencies (ex : String → Bool) (node : String → Option RpcBlock)
    (b : Batch) (h : String) (block : RpcBlock) : CollectResult :=
  collectLoop ex node (MAX_SUPPORTED_MISSING_DEPENDENCIES + 2) 0 (b.add h block)

/-- Batch.add appends at most one entry at the end of the list. -/
theorem Batch.add_blocks (b : Batch) (h : String) (block : RpcBlock) :
    (b.add h block).blocks = b.blocks ∨
    (b.add h block).blocks = b.blocks ++ [(h, block)] := by
  unfold Batch.add
  by_cases hcond : (!b.has h && b.in_scope block) = true
  · rw [if_pos hcond]
    exact Or.inr rfl
  · rw [if_neg hcond]
    exact Or.inl rfl

/-- collect_direct_dependencies only appends entries. -/
theorem collect_direct_dependencies_blocks (ex : String → Bool)
    (node : String → Option RpcBlock) (block : RpcBlock) :
    ∀ b : Batch, ∃ t, (collect_direct_dependencies ex node b block).blocks = b.blocks ++ t := by
  unfold collect_direct_dependencies
  induction block.parents with
  | nil => exact fun b => ⟨[], by simp⟩
  | cons p rest ih =>
    intro b
    simp only [List.foldl_cons]
    by_cases hex : ex p = true
    · rw [if_pos hex]
      exact ih b
    · rw [if_neg hex]
      rcases node p with _ | rb
      · exact ih b
      · obtain ⟨t, ht⟩ := ih (b.add p rb)
        rcases Batch.add_blocks b p rb with ha | ha
        · exact ⟨t, by rw [ht, ha]⟩
        · exact ⟨(p, rb) :: t, by rw [ht, ha]; simp⟩

/-- An ok outcome of the collect loop never exceeds the dependency cap. -/
theorem collectLoop_ok_le (ex : String → Bool) (node : String → Option RpcBlock) :
    ∀ (fuel i : Nat) (b : Batch), b.blocks.length ≤ MAX_SUPPORTED_MISSING_DEPENDENCIES →
    ∀ b1, collectLoop ex node fuel i b = CollectResult.ok b1 →
    b1.blocks.length ≤ MAX_SUPPORTED_MISSING_DEPENDENCIES := by
  intro fuel
  induction fuel with
  | zero =>
    intro i b _ b1 hres
    cases hres
  | succ fuel ih =>
    intro i b hb b1 hres
    rw [collectLoop] at hres
    by_cases hi : i < b.blocks.length
    · rw [if_pos hi] at hres
      by_cases hcap : (collect_direct_dependencies ex node b
          (b.blocks.getD i ("", default)).2).blocks.length >
          MAX_SUPPORTED_MISSING_DEPENDENCIES
      · rw [if_pos hcap] at hres
        cases hres
      · rw [if_neg hcap] at hres
        exact ih (i + 1) _ (by omega) b1 hres
    · rw [if_neg hi] at hres
      cases hres
      exact hb

/-- With fuel MAX + 2 - i the collect loop never runs out of fuel. -/
theorem collectLoop_no_fuel_exhaustion (ex : String → Bool) (node : String → Option RpcBlock) :
    ∀ (fuel i : Nat) (b : Batch), i ≤ b.blocks.length →
    b.blocks.length ≤ MAX_SUPPORTED_MISSING_DEPENDENCIES + 1 →
    MAX_SUPPORTED_MISSING_DEPENDENCIES + 2 - i ≤ fuel →
    collectLoop ex node fuel i b ≠ CollectResult.outOfFuel := by
  intro fuel
  induction fuel with
  | zero =>
    intro i b hi hb hfuel
    unfold MAX_SUPPORTED_MISSING_DEPENDENCIES at hb hfuel
    omega
  | succ fuel ih =>
    intro i b hi hb hfuel
    rw [collectLoop]
    by_cases hilt : i < b.blocks.length
    · rw [if_pos hilt]
      by_cases hcap : (collect_direct_dependencies ex node b
          (b.blocks.getD i ("", default)).2).blocks.length >
          MAX_SUPPORTED_MISSING_DEPENDENCIES
      · rw [if_pos hcap]
        intro hcon
        cases hcon
      · rw [if_neg hcap]
        obtain ⟨t, ht⟩ := collect_direct_dependencies_blocks ex node
          (b.blocks.getD i ("", default)).2 b
        refine ih (i + 1) _ ?_ (by omega) (by omega)
        rw [ht]
        simp only [List.length_append]
        omega
    · rw [if_neg hilt]
      intro hcon
      cases hcon

/-- C2: collect_block_and_dependencies on a fresh batch either returns ok
with at most 600 collected entries or fails with
TooManyMissingDependencies; it never returns ok with more than 600. -/
theorem C2_collect_block_and_dependencies (ex : String → Bool)
    (node : String → Option RpcBlock) (pb : Option RpcBlock) (h : String) (block : RpcBlock) :
    (∃ b1, collect_block_and_dependencies ex node (Batch.new pb) h block = CollectResult.ok b1 ∧
      b1.blocks.length ≤ MAX_SUPPORTED_MISSING_DEPENDENCIES) ∨
    collect_block_and_dependencies ex node (Batch.new pb) h block =
      CollectResult.tooManyMissingDependencies := by
  have hlen : ((Batch.new pb).add h block).blocks.length ≤ 1 := by
    rcases Batch.add_blocks (Batch.new pb) h block with ha | ha
    · rw [ha]
      exact Nat.zero_le 1
    · rw [ha]
      rfl
  rcases hres : collect_block_and_dependencies ex node (Batch.new pb) h block with b1 | _ | _
  · left
    refine ⟨b1, rfl, ?_⟩
    exact collectLoop_ok_le ex node (MAX_SUPPORTED_MISSING_DEPENDENCIES + 2) 0 _
      (by unfold MAX_SUPPORTED_MISSING_DEPENDENCIES; omega) b1 hres
  · right
    rfl
  · exact absurd hres (collectLoop_no_fuel_exhaustion ex node
      (MAX_SUPPORTED_MISSING_DEPENDENCIES + 2) 0 _ (Nat.zero_le _)
      (by unfold MAX_SUPPORTED_MISSING_DEPENDENCIES; omega)
      (by omega))

/-- The hash-to-index pairs of a block list, indices starting at i. -/
def idxPairsFrom (i : Nat) : List (String × RpcBlock) → List (String × Nat)
  | [] => []
  | e :: rest => (e.1, i) :: idxPairsFrom (i + 1) rest

/-- Structural shape of a well-formed batch: the hash map is exactly the
reversed enumeration of the block list and block hashes are distinct. -/
def BatchWFS (b : Batch) : Prop :=
  b.hashes = (idxPairsFrom 0 b.blocks).reverse ∧ (b.blocks.map Prod.fst).Nodup

theorem idxPairsFrom_concat (xs : List (String × RpcBlock)) (y : String × RpcBlock) :
    ∀ i, idxPairsFrom i (xs ++ [y]) = idxPairsFrom i xs ++ [(y.1, i + xs.length)] := by
  induction xs with
  | nil => intro i; simp [idxPairsFrom]
  | cons x rest ih =>
    intro i
    show (x.1, i) :: idxPairsFrom (i + 1) (rest ++ [y]) = _
    rw [ih (i + 1)]
    show _ = ((x.1, i) :: idxPairsFrom (i + 1) rest) ++ [(y.1, i + (rest.length + 1))]
    rw [List.cons_append]
    have harith : i + 1 + rest.length = i + (rest.length + 1) := by omega
    rw [harith]

theorem idxPairsFrom_length (xs : List (String × RpcBlock)) :
    ∀ i, (idxPairsFrom i xs).length = xs.length := by
  induction xs with
  | nil => intro i; rfl
  | cons x rest ih => intro i; simp [idxPairsFrom, ih]

theorem mem_idxPairsFrom_key (xs : List (String × RpcBlock)) :
    ∀ i e, e ∈ idxPairsFrom i xs → e.1 ∈ xs.map Prod.fst := by
  induction xs with
  | nil => intro i e he; cases he
  | cons x rest ih =>
    intro i e he
    rcases List.mem_cons.mp he with rfl | he2
    · simp
    · simp only [List.map_cons, List.mem_cons]
      exact Or.inr (ih (i + 1) e he2)

theorem key_mem_idxPairsFrom (xs : List (String × RpcBlock)) :
    ∀ i k, k ∈ xs.map Prod.fst → ∃ j, (k, j) ∈ idxPairsFrom i xs := by
  induction xs with
  | nil => intro i k hk; cases hk
  | cons x rest ih =>
    intro i k hk
    rcases List.mem_cons.mp hk with rfl | hk2
    · exact ⟨i, List.mem_cons_self _ _⟩
    · obtain ⟨j, hj⟩ := ih (i + 1) k hk2
      exact ⟨j, List.mem_cons_of_mem _ hj⟩

theorem filter_key_ne_of_all_ne {l : List (String × Nat)} {k : String}
    (hall : ∀ e ∈ l, e.1 ≠ k) : l.filter (fun e => e.1 != k) = l := by
  apply List.filter_eq_self.mpr
  intro e he
  simp only [bne_iff_ne, ne_eq, decide_eq_true_eq]
  exact hall e he

theorem assocLookup_eq_none_iff {l : List (String × Nat)} {k : String} :
    assocLookup l k = none ↔ ∀ e ∈ l, e.1 ≠ k := by
  induction l with
  | nil => simp [assocLookup]
  | cons e rest ih =>
    by_cases hb : (e.1 == k) = true
    · constructor
      · intro hnone
        rw [assocLookup, if_pos hb] at hnone
        cases hnone
      · intro hall
        exact absurd (beq_iff_eq.mp hb) (hall e (List.mem_cons_self e rest))
    · rw [assocLookup, if_neg hb, ih]
      constructor
      · intro hrest x hx
        rcases List.mem_cons.mp hx with rfl | hx2
        · intro heq
          exact hb (beq_iff_eq.mpr heq)
        · exact hrest x hx2
      · intro hall x hx
        exact hall x (List.mem_cons_of_mem e hx)

/-- Batch.new is structurally well formed. -/
theorem BatchWFS_new (pb : Option RpcBlock) : BatchWFS (Batch.new pb) :=
  ⟨rfl, List.nodup_nil⟩

/-- Batch.add preserves the structural invariant. -/
theorem BatchWFS_add (b : Batch) (h : String) (blk : RpcBlock) (hwf : BatchWFS b) :
    BatchWFS (b.add h blk) := by
  obtain ⟨hsh, hnd⟩ := hwf
  unfold Batch.add
  by_cases hcond : (!b.has h && b.in_scope blk) = true
  · rw [if_pos hcond]
    have hhas : b.has h = false := by
      rcases Bool.and_eq_true _ _ |>.mp hcond with ⟨h1, _⟩
      simpa using h1
    have hnone : assocLookup b.hashes h = none := by
      unfold Batch.has at hhas
      exact Option.not_isSome_iff_eq_none.mp (by simp [hhas])
    have hallne : ∀ e ∈ b.hashes, e.1 ≠ h := assocLookup_eq_none_iff.mp hnone
    have hnotin : h ∉ b.blocks.map Prod.fst := by
      intro hmem
      obtain ⟨j, hj⟩ := key_mem_idxPairsFrom b.blocks 0 h hmem
      have : ((h, j) : String × Nat) ∈ b.hashes := by
        rw [hsh]
        exact List.mem_reverse.mpr hj
      exact hallne _ this rfl
    constructor
    · show assocInsert b.hashes h b.blocks.length = _
      unfold assocInsert
      rw [filter_key_ne_of_all_ne hallne, hsh]
      rw [idxPairsFrom_concat b.blocks (h, blk) 0]
      simp
    · simp only [List.map_append, List.map_cons, List.map_nil]
      rw [List.nodup_append]
      refine ⟨hnd, List.nodup_singleton _, ?_⟩
      intro a ha hb2
      simp only [List.mem_singleton] at hb2
      subst hb2
      exact hnotin ha
  · rw [if_neg hcond]
    exact ⟨hsh, hnd⟩

/-- Batch.pop preserves the structural invariant. -/
theorem BatchWFS_pop (b : Batch) (p : (String × RpcBlock) × Batch) (hwf : BatchWFS b)
    (hp : b.pop = some p) : BatchWFS p.2 := by
  obtain ⟨hsh, hnd⟩ := hwf
  unfold Batch.pop at hp
  rcases hl : b.blocks.getLast? with _ | e
  · rw [hl] at hp
    cases hp
  · rw [hl] at hp
    obtain ⟨ys, hys⟩ := List.getLast?_eq_some_iff.mp hl
    injection hp with hp
    subst hp
    simp only
    have hdrop : b.blocks.dropLast = ys := by
      rw [hys, List.dropLast_concat]
    have hnd_ys : (ys.map Prod.fst).Nodup ∧ e.1 ∉ ys.map Prod.fst := by
      rw [hys, List.map_append, List.map_cons, List.map_nil, List.nodup_append] at hnd
      obtain ⟨h1, _, h3⟩ := hnd
      exact ⟨h1, fun hmem => h3 hmem (List.mem_singleton_self _)⟩
    constructor
    · show assocRemove b.hashes e.1 = (idxPairsFrom 0 b.blocks.dropLast).reverse
      unfold assocRemove
      rw [hsh, hys, List.dropLast_concat, idxPairsFrom_concat ys e 0]
      rw [List.reverse_append, List.reverse_singleton, List.singleton_append]
      rw [List.filter_cons]
      have hne : (((e.1, 0 + ys.length) : String × Nat).1 != e.1) = false := by simp
      rw [hne]
      simp only [Bool.false_eq_true, if_false]
      apply filter_key_ne_of_all_ne
      intro x hx
      have hxk := mem_idxPairsFrom_key ys 0 x (List.mem_reverse.mp hx)
      intro heq
      rw [heq] at hxk
      exact hnd_ys.2 hxk
    · rw [hdrop]
      exact hnd_ys.1

/-- collect_direct_dependencies preserves the structural invariant. -/
theorem BatchWFS_cdd (ex : String → Bool) (node : String → Option RpcBlock) (blk : RpcBlock) :
    ∀ b : Batch, BatchWFS b → BatchWFS (collect_direct_dependencies ex node b blk) := by
  unfold collect_direct_dependencies
  induction blk.parents with
  | nil => intro b hwf; exact hwf
  | cons p rest ih =>
    intro b hwf
    simp only [List.foldl_cons]
    by_cases hex : ex p = true
    · rw [if_pos hex]
      exact ih b hwf
    · rw [if_neg hex]
      rcases node p with _ | rb
      · exact ih b hwf
      · exact ih _ (BatchWFS_add b p rb hwf)

/-- The collect loop preserves the structural invariant on ok outcomes. -/
theorem BatchWFS_collectLoop (ex : String → Bool) (node : String → Option RpcBlock) :
    ∀ (fuel i : Nat) (b b1 : Batch), BatchWFS b →
    collectLoop ex node fuel i b = CollectResult.ok b1 → BatchWFS b1 := by
  intro fuel
  induction fuel with
  | zero =>
    intro i b b1 _ hres
    cases hres
  | succ fuel ih =>
    intro i b b1 hwf hres
    rw [collectLoop] at hres
    by_cases hi : i < b.blocks.length
    · rw [if_pos hi] at hres
      by_cases hcap : (collect_direct_dependencies ex node b
          (b.blocks.getD i ("", default)).2).blocks.length >
          MAX_SUPPORTED_MISSING_DEPENDENCIES
      · rw [if_pos hcap] at hres
        cases hres
      · rw [if_neg hcap] at hres
        exact ih (i + 1) _ b1 (BatchWFS_cdd ex node _ b hwf) hres
    · rw [if_neg hi] at hres
      cases hres
      exact hwf

/-- A batch reachable by the public Batch operations. -/
inductive BatchReachable : Batch → Prop where
  | new (pb : Option RpcBlock) : BatchReachable (Batch.new pb)
  | add (b : Batch) (h : String) (blk : RpcBlock) :
      BatchReachable b → BatchReachable (b.add h blk)
  | pop (b : Batch) (p : (String × RpcBlock) × Batch) :
      BatchReachable b → b.pop = some p → BatchReachable p.2
  | collect (ex : String → Bool) (node : String → Option RpcBlock) (b : Batch)
      (h : String) (blk : RpcBlock) (b1 : Batch) : BatchReachable b →
      collect_block_and_dependencies ex node b h blk = CollectResult.ok b1 →
      BatchReachable b1

/-- Every reachable batch satisfies the structural invariant. -/
theorem BatchReachable_wfs {b : Batch} (hr : BatchReachable b) : BatchWFS b := by
  induction hr with
  | new pb => exact BatchWFS_new pb
  | add b h blk _ ih => exact BatchWFS_add b h blk ih
  | pop b p _ hp ih => exact BatchWFS_pop b p ih hp
  | collect ex node b h blk b1 _ hres ih =>
    exact BatchWFS_collectLoop ex node (MAX_SUPPORTED_MISSING_DEPENDENCIES + 2) 0 _ b1
      (BatchWFS_add b h blk ih) hres

/-- In the reversed enumeration with distinct keys, looking up the hash of
the element at index i yields i. -/
theorem lookup_rev_idxPairs (blocks : List (String × RpcBlock))
    (nodup : (blocks.map Prod.fst).Nodup) :
    ∀ i, i < blocks.length →
      assocLookup (idxPairsFrom 0 blocks).reverse (blocks.getD i ("", default)).1 = some i := by
  induction blocks using List.reverseRecOn with
  | nil =>
    intro i hi
    simp at hi
  | append_singleton ys x ih =>
    intro i hi
    rw [idxPairsFrom_concat ys x 0]
    rw [List.reverse_append, List.reverse_singleton, List.singleton_append, Nat.zero_add]
    have hndy : (ys.map Prod.fst).Nodup ∧ x.1 ∉ ys.map Prod.fst := by
      rw [List.map_append, List.map_cons, List.map_nil, List.nodup_append] at nodup
      obtain ⟨h1, _, h3⟩ := nodup
      exact ⟨h1, fun hmem => h3 hmem (List.mem_singleton_self _)⟩
    rw [List.length_append, List.length_singleton] at hi
    by_cases hiy : i < ys.length
    · have hget : (ys ++ [x]).getD i ("", default) = ys.getD i ("", default) := by
        rw [List.getD_eq_getElem?_getD, List.getElem?_append_left hiy,
          ← List.getD_eq_getElem?_getD]
      rw [hget]
      have hkey : (ys.getD i ("", default)).1 ∈ ys.map Prod.fst := by
        refine List.mem_map_of_mem Prod.fst ?_
        rw [List.getD_eq_getElem ys ("", default) hiy]
        exact List.getElem_mem hiy
      have hne : (x.1 == (ys.getD i ("", default)).1) = false := by
        rw [beq_eq_false_iff_ne]
        intro heq
        rw [heq] at hndy
        exact hndy.2 hkey
      simp only [assocLookup, hne, Bool.false_eq_true, if_false]
      exact ih hndy.1 i hiy
    · have hieq : i = ys.length := by omega
      subst hieq
      have hget : (ys ++ [x]).getD ys.length ("", default) = x := by
        rw [List.getD_eq_getElem?_getD, List.getElem?_append_right (le_refl _)]
        simp
      rw [hget]
      simp [assocLookup]

/-- Every successful lookup in the reversed enumeration returns a valid
index holding that hash. -/
theorem lookup_rev_idxPairs_inv (blocks : List (String × RpcBlock)) :
    ∀ k i, assocLookup (idxPairsFrom 0 blocks).reverse k = some i →
      i < blocks.length ∧ (blocks.getD i ("", default)).1 = k := by
  induction blocks using List.reverseRecOn with
  | nil =>
    intro k i hk
    cases hk
  | append_singleton ys x ih =>
    intro k i hk
    rw [idxPairsFrom_concat ys x 0] at hk
    rw [List.reverse_append, List.reverse_singleton, List.singleton_append, Nat.zero_add] at hk
    cases hbeq : (x.1 == k) with
    | true =>
      simp only [assocLookup, hbeq, if_true] at hk
      injection hk with hk
      subst hk
      refine ⟨by simp, ?_⟩
      have hget : (ys ++ [x]).getD ys.length ("", default) = x := by
        rw [List.getD_eq_getElem?_getD, List.getElem?_append_right (le_refl _)]
        simp
      rw [hget]
      exact beq_iff_eq.mp hbeq
    | false =>
      simp only [assocLookup, hbeq, Bool.false_eq_true, if_false] at hk
      obtain ⟨hlt, hval⟩ := ih k i hk
      refine ⟨?_, ?_⟩
      · rw [List.length_append, List.length_singleton]
        omega
      · have hget : (ys ++ [x]).getD i ("", default) = ys.getD i ("", default) := by
          rw [List.getD_eq_getElem?_getD, List.getElem?_append_left hlt,
            ← List.getD_eq_getElem?_getD]
        rw [hget]
        exact hval

/-- C10: every batch reachable by new, add, pop and
collect_block_and_dependencies has a hash map with exactly one entry per
element of the blocks list, mapping that element's hash to its index;
consequently no two list entries share a hash. -/
theorem C10_batch_hashes_invariant (b : Batch) (hr : BatchReachable b) :
    b.hashes.length = b.blocks.length ∧
    (∀ i, i < b.blocks.length →
      assocLookup b.hashes (b.blocks.getD i ("", default)).1 = some i) ∧
    (∀ k i, assocLookup b.hashes k = some i →
      i < b.blocks.length ∧ (b.blocks.getD i ("", default)).1 = k) ∧
    (∀ i j, i < b.blocks.length → j < b.blocks.length →
      (b.blocks.getD i ("", default)).1 = (b.blocks.getD j ("", default)).1 → i = j) := by
  obtain ⟨hsh, hnd⟩ := BatchReachable_wfs hr
  refine ⟨?_, ?_, ?_, ?_⟩
  · rw [hsh, List.length_reverse, idxPairsFrom_length]
  · intro i hi
    rw [hsh]
    exact lookup_rev_idxPairs b.blocks hnd i hi
  · intro k i hk
    rw [hsh] at hk
    exact lookup_rev_idxPairs_inv b.blocks k i hk
  · intro i j hi hj heq
    have h1 := lookup_rev_idxPairs b.blocks hnd i hi
    have h2 := lookup_rev_idxPairs b.blocks hnd j hj
    rw [heq] at h1
    rw [h1] at h2
    exact Option.some.inj h2

/-- Concrete blocks for the C10 witness. -/
def blkA : RpcBlock :=
  { hash := "a", timestamp := 0, daa_score := 10, parents := [], verbose_data := none }

/-- A second concrete block for the C10 witness. -/
def blkB : RpcBlock :=
  { hash := "b", timestamp := 0, daa_score := 11, parents := ["a"], verbose_data := none }

/-- Concrete reachable batch for the C10 witness. -/
def c10Batch : Batch := ((Batch.new none).add "a" blkA).add "b" blkB

/-- Witness for C10: a concrete batch built by new and two adds is
reachable and satisfies the invariant. -/
theorem C10_witness :
    BatchReachable c10Batch ∧
    (c10Batch.hashes.length = c10Batch.blocks.length ∧
    (∀ i, i < c10Batch.blocks.length →
      assocLookup c10Batch.hashes (c10Batch.blocks.getD i ("", default)).1 = some i) ∧
    (∀ k i, assocLookup c10Batch.hashes k = some i →
      i < c10Batch.blocks.length ∧ (c10Batch.blocks.getD i ("", default)).1 = k) ∧
    (∀ i j, i < c10Batch.blocks.length → j < c10Batch.blocks.length →
      (c10Batch.blocks.getD i ("", default)).1 = (c10Batch.blocks.getD j ("", default)).1 →
      i = j)) :=
  have hreach : BatchReachable c10Batch :=
    BatchReachable.add _ "b" blkB (BatchReachable.add _ "a" blkA (BatchReachable.new none))
  ⟨hreach, C10_batch_hashes_invariant c10Batch hreach⟩

/-- Iterator max over a list of heights (Rust iter().max()). -/
def listMax : List Nat → Option Nat
  | [] => none
  | x :: rest =>
    match listMax rest with
    | none => some x
    | some m => some (Nat.max x m)

/-- processing/mod.rs, the parent-filtering loop of process_block_static:
keep the parent hashes that exist in the store (missing ones are only
logged). -/
def existing_parent_hashes_loop : List String → DbM (List String)
  | [] => DbM.pure []
  | p :: rest =>
    DbM.bind (does_block_exist p) (fun parent_exists =>
      DbM.bind (existing_parent_hashes_loop rest) (fun es =>
        DbM.pure (if parent_exists then p :: es else es)))

/-- processing/mod.rs, the edge-insertion loop of process_block_static:
one edge per parent id, with the denormalized heights and group indices. -/
def edgesLoop (block_id bh bhgi : Nat) : List Nat → DbM Unit
  | [] => DbM.pure ()
  | pid :: rest =>
    DbM.bind (block_height pid) (fun parent_height =>
      DbM.bind (block_height_group_index pid) (fun parent_hgi =>
        DbM.bind (insert_edge
          { from_block_id := block_id, to_block_id := pid,
            from_height := bh, to_height := parent_height,
            from_height_group_index := bhgi, to_height_group_index := parent_hgi })
          (fun _ => edgesLoop block_id bh bhgi rest)))

/-- Rust: parent_heights.iter().max().map(h + 1).unwrap_or(0). -/
def heightFromParents (parent_heights : List Nat) : Nat :=
  match listMax parent_heights with
  | some m => m + 1
  | none => 0

/-- processing/mod.rs, process_block_static, the insert branch taken when
the block does not yet exist: resolve stored parents, derive height and
height group index, insert the row, bump the height group and add edges. -/
def insertNewBlock (block : RpcBlock) : DbM Unit :=
  DbM.bind (existing_parent_hashes_loop block.parents) (fun existing_parent_hashes =>
    DbM.bind (block_ids_and_heights_by_hashes existing_parent_hashes) (fun ph =>
      DbM.bind (height_group_size (heightFromParents ph.2)) (fun hgs =>
        DbM.bind (insert_block block.hash
          { id := 0, block_hash := block.hash, timestamp := block.timestamp,
            parent_ids := ph.1, daa_score := block.daa_score,
            height := heightFromParents ph.2, height_group_index := hgs,
            selected_parent_id := none, color := COLOR_GRAY,
            is_in_virtual_selected_parent_chain := false,
            merge_set_red_ids := [], merge_set_blue_ids := [] }) (fun _ =>
          DbM.bind (block_id_by_hash block.hash) (fun block_id =>
            DbM.bind (insert_or_update_height_group
              { height := heightFromParents ph.2, size := hgs + 1 }) (fun _ =>
              edgesLoop block_id (heightFromParents ph.2) hgs ph.1))))))

/-- processing/mod.rs, process_block_static, the body of the second phase
once verbose data with a block body is present: resolve and store the
selected parent (failing when it cannot be resolved) and the merge sets
(defaulting each whole merge-set id list to empty when a lookup fails,
Result::unwrap_or_default). -/
def verboseUpdate (vd : VerboseData) (block_hash : String) : DbM Unit :=
  DbM.bind (block_id_by_hash vd.selected_parent_hash) (fun selected_parent_id =>
    DbM.bind (block_id_by_hash block_hash) (fun block_id =>
      DbM.bind (update_block_selected_parent block_id selected_parent_id) (fun _ =>
        DbM.bind (DbM.orDefault (block_ids_by_hashes vd.merge_set_reds_hashes) [])
          (fun red_ids =>
          DbM.bind (DbM.orDefault (block_ids_by_hashes vd.merge_set_blues_hashes) [])
            (fun blue_ids =>
            update_block_merge_set block_id red_ids blue_ids)))))

/-- processing/mod.rs, process_block_static, the second phase: refetch the
block from the node; return early when verbose data is absent or the block
is header-only; otherwise apply the verbose update. -/
def verbosePhase (node : String → Option RpcBlock) (block_hash : String) : DbM Unit :=
  match node block_hash with
  | none => DbM.fail (DbError.rpcError block_hash)
  | some rb =>
    match rb.verbose_data with
    | none => DbM.pure ()
    | some vd =>
      if vd.is_header_only then DbM.pure ()
      else verboseUpdate vd block_hash

/-- processing/mod.rs, Processing::process_block_static: insert the block
when unseen, then apply the verbose-data phase. -/
def process_block_static (node : String → Option RpcBlock) (block : RpcBlock) : DbM Unit :=
  DbM.bind (does_block_exist block.hash) (fun block_exists =>
    DbM.bind (if !block_exists then insertNewBlock block else DbM.pure ()) (fun _ =>
      verbosePhase node block.hash))

/-- Height of the stored block with the given hash, 0 when absent. -/
def Store.blockHeightOf (st : Store) (h : String) : Nat :=
  match st.blockByHash h with
  | some row => row.height
  | none => 0

/-- Id of the stored block with the given hash, 0 when absent. -/
def Store.blockIdOf (st : Store) (h : String) : Nat :=
  match st.blockByHash h with
  | some row => row.id
  | none => 0

theorem listMax_eq_none_iff (l : List Nat) : listMax l = none ↔ l = [] := by
  cases l with
  | nil => simp [listMax]
  | cons a t =>
    rw [listMax]
    rcases listMax t with _ | m <;> simp

theorem listMax_le (l : List Nat) : ∀ x ∈ l, ∀ m, listMax l = some m → x ≤ m := by
  induction l with
  | nil => intro x hx; cases hx
  | cons a t ih =>
    intro x hx m hm
    rw [listMax] at hm
    rcases ht : listMax t with _ | mt
    · rw [ht] at hm
      injection hm with hm
      subst hm
      have ht2 : t = [] := (listMax_eq_none_iff t).mp ht
      subst ht2
      rcases List.mem_cons.mp hx with rfl | hx2
      · exact le_refl _
      · cases hx2
    · rw [ht] at hm
      injection hm with hm
      subst hm
      rcases List.mem_cons.mp hx with rfl | hx2
      · exact Nat.le_max_left _ _
      · exact le_trans (ih x hx2 mt ht) (Nat.le_max_right _ _)

theorem listMax_mem (l : List Nat) : ∀ m, listMax l = some m → m ∈ l := by
  induction l with
  | nil => intro m hm; cases hm
  | cons a t ih =>
    intro m hm
    rw [listMax] at hm
    rcases ht : listMax t with _ | mt
    · rw [ht] at hm
      injection hm with hm
      subst hm
      exact List.mem_cons_self _ _
    · rw [ht] at hm
      injection hm with hm
      have hmm : max a mt = m := hm
      by_cases ham : a ≤ mt
      · rw [max_eq_right ham] at hmm
        subst hmm
        exact List.mem_cons_of_mem a (ih mt ht)
      · rw [max_eq_left (Nat.le_of_not_le ham)] at hmm
        subst hmm
        exact List.mem_cons_self _ _

theorem cachePeek_cachePut_self (c : Cache) (h : String) (bb : BlockBase) :
    cachePeek (cachePut c h bb) h = some bb := by
  unfold cachePut
  rw [show BLOCK_BASE_CACHE_CAPACITY = 399999 + 1 from rfl, List.take_succ_cons]
  rw [cachePeek, if_pos (by simp)]

theorem find?_append_of_none {α : Type} (p : α → Bool) :
    ∀ l1 : List α, l1.find? p = none → ∀ l2, (l1 ++ l2).find? p = l2.find? p := by
  intro l1
  induction l1 with
  | nil => intro _ l2; rfl
  | cons a t ih =>
    intro hn l2
    cases hpa : p a with
    | true =>
      rw [List.find?_cons_of_pos _ hpa] at hn
      cases hn
    | false =>
      have hnp : ¬p a = true := by rw [hpa]; exact Bool.false_ne_true
      rw [List.find?_cons_of_neg _ hnp] at hn
      rw [List.cons_append, List.find?_cons_of_neg _ hnp]
      exact ih hn l2

theorem find?_map_of_pred {α : Type} (F : α → α) (p : α → Bool)
    (hp : ∀ b, p (F b) = p b) :
    ∀ l : List α, (l.map F).find? p = (l.find? p).map F := by
  intro l
  induction l with
  | nil => rfl
  | cons a t ih =>
    cases hpa : p a with
    | true =>
      have hFa : p (F a) = true := by rw [hp a, hpa]
      rw [List.map_cons, List.find?_cons_of_pos _ hFa, List.find?_cons_of_pos _ hpa]
      rfl
    | false =>
      have hFa : ¬p (F a) = true := by rw [hp a, hpa]; exact Bool.false_ne_true
      have hpa2 : ¬p a = true := by rw [hpa]; exact Bool.false_ne_true
      rw [List.map_cons, List.find?_cons_of_neg _ hFa, List.find?_cons_of_neg _ hpa2]
      exact ih

theorem hgLookup_map_setSize (h sz : Nat) :
    ∀ gs : List HeightGroup,
    hgLookup (gs.map (fun g => if g.height == h then { g with size := sz } else g)) h =
      (hgLookup gs h).map (fun g => { g with size := sz }) := by
  intro gs
  induction gs with
  | nil => rfl
  | cons g rest ih =>
    by_cases hb : (g.height == h) = true
    · rw [List.map_cons, if_pos hb]
      rw [hgLookup, if_pos (by simpa using hb), hgLookup, if_pos hb]
      rfl
    · rw [List.map_cons, if_neg hb]
      rw [hgLookup, if_neg hb, hgLookup, if_neg hb]
      exact ih

theorem hgLookup_append_self (hg : HeightGroup) :
    ∀ gs : List HeightGroup, hgLookup gs hg.height = none →
    hgLookup (gs ++ [hg]) hg.height = some hg := by
  intro gs
  induction gs with
  | nil =>
    intro _
    rw [List.nil_append, hgLookup, if_pos (by simp)]
  | cons g rest ih =>
    intro hn
    rw [hgLookup] at hn
    by_cases hb : (g.height == hg.height) = true
    · rw [if_pos hb] at hn
      cases hn
    · rw [if_neg hb] at hn
      rw [List.cons_append, hgLookup, if_neg hb]
      exact ih hn

/-- After upserting a height group, its height reads back the upserted size. -/
theorem heightGroupSize_upsert (st : Store) (hg : HeightGroup) :
    (st.upsertHeightGroup hg).heightGroupSize hg.height = hg.size := by
  unfold Store.upsertHeightGroup Store.heightGroupSize
  by_cases hs : (hgLookup st.height_groups hg.height).isSome = true
  · rw [if_pos hs]
    simp only
    rw [hgLookup_map_setSize]
    rcases hl : hgLookup st.height_groups hg.height with _ | g
    · rw [hl] at hs
      cases hs
    · rfl
  · rw [if_neg hs]
    simp only
    have hnone : hgLookup st.height_groups hg.height = none :=
      Option.not_isSome_iff_eq_none.mp (by simpa using hs)
    rw [hgLookup_append_self hg st.height_groups hnone]

/-- Upserting a height group leaves the blocks table unchanged. -/
theorem upsertHeightGroup_blocks (st : Store) (hg : HeightGroup) :
    (st.upsertHeightGroup hg).blocks = st.blocks := by
  unfold Store.upsertHeightGroup
  by_cases hs : (hgLookup st.height_groups hg.height).isSome = true
  · rw [if_pos hs]
  · rw [if_neg hs]

/-- The stored direct parents of a node block. -/
def storedParents (st : Store) (block : RpcBlock) : List String :=
  block.parents.filter st.hasBlockHash

/-- The height process_block_static derives for a new block: one more than
the maximum stored-parent height, or 0 without stored parents. -/
def newHeight (st : Store) (block : RpcBlock) : Nat :=
  heightFromParents ((storedParents st block).map st.blockHeightOf)

/-- The row process_block_static inserts for a new block. -/
def newRow (st : Store) (block : RpcBlock) : Block :=
  { id := st.next_id, block_hash := block.hash, timestamp := block.timestamp,
    parent_ids := (storedParents st block).map st.blockIdOf,
    daa_score := block.daa_score, height := newHeight st block,
    height_group_index := st.heightGroupSize (newHeight st block),
    selected_parent_id := none, color := COLOR_GRAY,
    is_in_virtual_selected_parent_chain := false,
    merge_set_red_ids := [], merge_set_blue_ids := [] }

/-- Under a coherent cache the parent-filtering loop returns exactly the
stored parents, without changing the store. -/
theorem existing_parent_hashes_loop_spec :
    ∀ (ps : List String) (s : DbState), CacheCoherent s →
    ∃ s1, existing_parent_hashes_loop ps s =
        (Except.ok (ps.filter s.store.hasBlockHash), s1) ∧
      s1.store = s.store ∧ CacheCoherent s1 := by
  intro ps
  induction ps with
  | nil => intro s hc; exact ⟨s, rfl, rfl, hc⟩
  | cons p rest ih =>
    intro s hc
    rcases he : does_block_exist p s with ⟨v, s1⟩
    have hspec := does_block_exist_spec p s hc
    rw [he] at hspec
    obtain ⟨hv, hs1, hc1⟩ := hspec
    simp only at hv hs1
    obtain ⟨s2, hrest, hs2, hc2⟩ := ih s1 hc1
    rw [hs1] at hrest
    refine ⟨s2, ?_, hs2.trans hs1, hc2⟩
    show DbM.bind _ _ s = _
    rw [DbM.bind, he, hv]
    show DbM.bind _ _ s1 = _
    rw [DbM.bind, hrest]
    show DbM.pure _ s2 = _
    rw [DbM.pure, List.filter_cons]

/-- Under a coherent cache, when all hashes are stored, the batched id and
height lookup returns the stored ids and heights in input order, without
changing the store. -/
theorem block_ids_and_heights_by_hashes_spec :
    ∀ (hs : List String) (s : DbState), CacheCoherent s →
    (∀ p ∈ hs, s.store.hasBlockHash p = true) →
    ∃ s1, block_ids_and_heights_by_hashes hs s =
        (Except.ok (hs.map s.store.blockIdOf, hs.map s.store.blockHeightOf), s1) ∧
      s1.store = s.store ∧ CacheCoherent s1 := by
  intro hs
  induction hs with
  | nil => intro s hc _; exact ⟨s, rfl, rfl, hc⟩
  | cons p rest ih =>
    intro s hc hall
    have hp := hall p (List.mem_cons_self _ _)
    rcases hby : s.store.blockByHash p with _ | row
    · rw [Store.hasBlockHash, hby] at hp
      cases hp
    · rcases he1 : block_id_by_hash p s with ⟨v1, s1⟩
      have hspec1 := block_id_by_hash_spec p s hc
      rw [he1, hby] at hspec1
      obtain ⟨hv1, hs1, hc1⟩ := hspec1
      simp only at hv1 hs1
      rcases he2 : block_height_by_hash p s1 with ⟨v2, s2⟩
      have hspec2 := block_height_by_hash_spec p s1 hc1
      rw [he2, hs1, hby] at hspec2
      obtain ⟨hv2, hs2, hc2⟩ := hspec2
      simp only at hv2 hs2
      obtain ⟨s3, hrest, hs3, hc3⟩ := ih s2 hc2
        (by intro q hq; rw [hs2]; exact hall q (List.mem_cons_of_mem p hq))
      rw [hs2] at hrest
      refine ⟨s3, ?_, hs3.trans hs2, hc3⟩
      show DbM.bind _ _ s = _
      rw [DbM.bind, he1, hv1]
      show DbM.bind _ _ s1 = _
      rw [DbM.bind, he2, hv2]
      show DbM.bind _ _ s2 = _
      rw [DbM.bind, hrest]
      show DbM.pure _ s3 = _
      rw [DbM.pure]
      have hid : row.id = s.store.blockIdOf p := by rw [Store.blockIdOf, hby]
      have hht : row.height = s.store.blockHeightOf p := by rw [Store.blockHeightOf, hby]
      rw [hid, hht, List.map_cons, List.map_cons]

/-- The edge loop succeeds when every parent id resolves, and leaves the
blocks and height_groups tables and the cache unchanged. -/
theorem edgesLoop_spec (block_id bh bhgi : Nat) :
    ∀ (pids : List Nat) (s : DbState),
    (∀ pid ∈ pids, (s.store.blockById pid).isSome = true) →
    ∃ s1, edgesLoop block_id bh bhgi pids s = (Except.ok (), s1) ∧
      s1.store.blocks = s.store.blocks ∧
      s1.store.height_groups = s.store.height_groups ∧
      s1.store.next_id = s.store.next_id ∧
      s1.cache = s.cache := by
  intro pids
  induction pids with
  | nil => intro s _; exact ⟨s, rfl, rfl, rfl, rfl, rfl⟩
  | cons pid rest ih =>
    intro s hall
    have hpid := hall pid (List.mem_cons_self _ _)
    rcases hby : s.store.blockById pid with _ | prow
    · rw [hby] at hpid
      cases hpid
    · have hbh : block_height pid s = (Except.ok prow.height, s) := by
        rw [block_height, hby]
      have hbhgi : block_height_group_index pid s =
          (Except.ok prow.height_group_index, s) := by
        rw [block_height_group_index, hby]
      rcases hie : insert_edge
          { from_block_id := block_id, to_block_id := pid,
            from_height := bh, to_height := prow.height,
            from_height_group_index := bhgi,
            to_height_group_index := prow.height_group_index } s with ⟨vie, sie⟩
      have hie2 : vie = Except.ok () ∧ sie.store.blocks = s.store.blocks ∧
          sie.store.height_groups = s.store.height_groups ∧
          sie.store.next_id = s.store.next_id ∧ sie.cache = s.cache := by
        rw [insert_edge, DbM.modifyStore] at hie
        injection hie with h1 h2
        subst h2
        refine ⟨h1.symm, ?_, ?_, ?_, rfl⟩ <;>
          · simp only
            by_cases hany : (s.store.edges.any fun e2 =>
                e2.from_block_id == block_id && e2.to_block_id == pid) = true
            · rw [if_pos hany]
            · rw [if_neg hany]
      obtain ⟨hvie, hb1, hb2, hb3, hb5⟩ := hie2
      subst hvie
      have hbyid : ∀ q, sie.store.blockById q = s.store.blockById q := by
        intro q
        unfold Store.blockById
        rw [hb1]
      obtain ⟨s1, hrest, hr1, hr2, hr3, hr4⟩ := ih sie
        (by intro q hq; rw [hbyid q]; exact hall q (List.mem_cons_of_mem pid hq))
      refine ⟨s1, ?_, hr1.trans hb1, hr2.trans hb2, hr3.trans hb3, hr4.trans hb5⟩
      show DbM.bind _ _ s = _
      rw [DbM.bind, hbh]
      show DbM.bind _ _ s = _
      rw [DbM.bind, hbhgi]
      show DbM.bind _ _ s = _
      rw [DbM.bind, hie]
      exact hrest

/-- The database state right after the new row is inserted: the row is
appended with the next id, the id sequence advances, and the cache gains
the new entry. -/
def midState (s sB : DbState) (block : RpcBlock) : DbState :=
  { store :=
      { s.store with
        blocks := s.store.blocks ++ [newRow s.store block],
        next_id := s.store.next_id + 1 },
    cache := cachePut sB.cache block.hash
      { id := s.store.next_id, height := newHeight s.store block } }

/-- midState after the height-group upsert. -/
def midState2 (s sB : DbState) (block : RpcBlock) : DbState :=
  { store := (midState s sB block).store.upsertHeightGroup
      { height := newHeight s.store block,
        size := s.store.heightGroupSize (newHeight s.store block) + 1 },
    cache := (midState s sB block).cache }

/-- Full effect of the insert branch on a block that is not yet stored:
it succeeds, the new row reads back by hash as exactly the derived row,
and the height group at the derived height grows by one. -/
theorem insertNewBlock_spec (block : RpcBlock) (s : DbState) (hc : CacheCoherent s)
    (hnew : s.store.hasBlockHash block.hash = false) :
    ∃ s2, insertNewBlock block s = (Except.ok (), s2) ∧
      s2.store.blockByHash block.hash = some (newRow s.store block) ∧
      s2.store.heightGroupSize (newHeight s.store block) =
        s.store.heightGroupSize (newHeight s.store block) + 1 := by
  obtain ⟨sA, hA, hAs, hAc⟩ := existing_parent_hashes_loop_spec block.parents s hc
  have hsp : block.parents.filter s.store.hasBlockHash = storedParents s.store block := rfl
  rw [hsp] at hA
  have hprec : ∀ p ∈ storedParents s.store block, sA.store.hasBlockHash p = true := by
    intro p hp
    rw [hAs]
    exact (List.mem_filter.mp hp).2
  obtain ⟨sB, hB, hBs0, hBc⟩ := block_ids_and_heights_by_hashes_spec
    (storedParents s.store block) sA hAc hprec
  rw [hAs] at hB hBs0
  have hhg : height_group_size
      (heightFromParents (List.map s.store.blockHeightOf (storedParents s.store block))) sB =
      (Except.ok (s.store.heightGroupSize
        (heightFromParents (List.map s.store.blockHeightOf (storedParents s.store block)))),
       sB) := by
    rw [height_group_size, hBs0]
  have hC : insert_block block.hash
      { id := 0, block_hash := block.hash, timestamp := block.timestamp,
        parent_ids := List.map s.store.blockIdOf (storedParents s.store block),
        daa_score := block.daa_score,
        height := heightFromParents (List.map s.store.blockHeightOf (storedParents s.store block)),
        height_group_index := s.store.heightGroupSize
          (heightFromParents (List.map s.store.blockHeightOf (storedParents s.store block))),
        selected_parent_id := none, color := COLOR_GRAY,
        is_in_virtual_selected_parent_chain := false,
        merge_set_red_ids := [], merge_set_blue_ids := [] } sB =
      (Except.ok (), midState s sB block) := by
    simp only [insert_block, hBs0]
    rw [hnew]
    rw [if_neg Bool.false_ne_true]
    rfl
  have hbid : block_id_by_hash block.hash (midState s sB block) =
      (Except.ok s.store.next_id, midState s sB block) := by
    simp only [block_id_by_hash, midState, cachePeek_cachePut_self]
  have hupsert : insert_or_update_height_group
      { height := heightFromParents (List.map s.store.blockHeightOf (storedParents s.store block)),
        size := s.store.heightGroupSize
          (heightFromParents (List.map s.store.blockHeightOf (storedParents s.store block))) + 1 }
      (midState s sB block) = (Except.ok (), midState2 s sB block) := by
    rw [insert_or_update_height_group, DbM.modifyStore]
    rfl
  have hprec2 : ∀ pid ∈ List.map s.store.blockIdOf (storedParents s.store block),
      ((midState2 s sB block).store.blockById pid).isSome = true := by
    intro pid hpid
    obtain ⟨p, hpmem, hpid2⟩ := List.mem_map.mp hpid
    have hstored : s.store.hasBlockHash p = true := (List.mem_filter.mp hpmem).2
    rcases hby : s.store.blockByHash p with _ | prow
    · rw [Store.hasBlockHash, hby] at hstored
      cases hstored
    · have hmem : prow ∈ s.store.blocks := List.mem_of_find?_eq_some hby
      have hpid3 : prow.id = pid := by
        rw [← hpid2, Store.blockIdOf, hby]
      unfold Store.blockById
      show (((midState s sB block).store.upsertHeightGroup _).blocks.find? _).isSome = true
      rw [upsertHeightGroup_blocks]
      show ((s.store.blocks ++ [newRow s.store block]).find? _).isSome = true
      rw [List.find?_isSome]
      exact ⟨prow, List.mem_append_left _ hmem, by rw [hpid3]; exact beq_self_eq_true pid⟩
  obtain ⟨sE, hE, hE1, hE2, hE3, hE4⟩ := edgesLoop_spec s.store.next_id
    (heightFromParents (List.map s.store.blockHeightOf (storedParents s.store block)))
    (s.store.heightGroupSize
      (heightFromParents (List.map s.store.blockHeightOf (storedParents s.store block))))
    (List.map s.store.blockIdOf (storedParents s.store block)) (midState2 s sB block) hprec2
  have hnone : s.store.blocks.find? (fun b => b.block_hash == block.hash) = none := by
    rcases hfind : s.store.blocks.find? (fun b => b.block_hash == block.hash) with _ | r
    · exact hfind
    · rw [Store.hasBlockHash, Store.blockByHash, hfind] at hnew
      simp at hnew
  have hblocks2 : (midState2 s sB block).store.blocks =
      s.store.blocks ++ [newRow s.store block] := by
    show ((midState s sB block).store.upsertHeightGroup _).blocks = _
    rw [upsertHeightGroup_blocks]
    rfl
  refine ⟨sE, ?_, ?_, ?_⟩
  · show insertNewBlock block s = (Except.ok (), sE)
    rw [insertNewBlock]
    show DbM.bind _ _ s = _
    rw [DbM.bind, hA]
    show DbM.bind _ _ sA = _
    rw [DbM.bind, hB]
    show DbM.bind _ _ sB = _
    rw [DbM.bind, hhg]
    show DbM.bind _ _ sB = _
    rw [DbM.bind, hC]
    show DbM.bind _ _ _ = _
    rw [DbM.bind, hbid]
    show DbM.bind _ _ _ = _
    rw [DbM.bind, hupsert]
    exact hE
  · show sE.store.blockByHash block.hash = some (newRow s.store block)
    unfold Store.blockByHash
    rw [hE1, hblocks2]
    rw [find?_append_of_none _ _ hnone]
    have hp : (fun (b : Block) => b.block_hash == block.hash) (newRow s.store block) = true := by
      simp [newRow]
    rw [@List.find?_cons_of_pos Block (fun b => b.block_hash == block.hash)
      (newRow s.store block) [] hp]
  · have hup := heightGroupSize_upsert (midState s sB block).store
      { height := newHeight s.store block,
        size := s.store.heightGroupSize (newHeight s.store block) + 1 }
    show (match hgLookup sE.store.height_groups (newHeight s.store block) with
      | some g => g.size | none => 0) = s.store.heightGroupSize (newHeight s.store block) + 1
    rw [hE2]
    exact hup

/-- Two stores agreeing on every row's height and height group index
(read by hash) and on the whole height_groups table. -/
def sameShape (st1 st2 : Store) : Prop :=
  (∀ h, Option.map (fun r => (r.height, r.height_group_index)) (st2.blockByHash h) =
        Option.map (fun r => (r.height, r.height_group_index)) (st1.blockByHash h)) ∧
  st2.height_groups = st1.height_groups

theorem sameShape_refl (st : Store) : sameShape st st := ⟨fun _ => rfl, rfl⟩

theorem sameShape_trans {a b c : Store} (h1 : sameShape a b) (h2 : sameShape b c) :
    sameShape a c :=
  ⟨fun h => (h2.1 h).trans (h1.1 h), h2.2.trans h1.2⟩

/-- A database computation that can move any state only to a state of the
same shape. -/
def ShapePreserving {α : Type} (m : DbM α) : Prop :=
  ∀ s, sameShape s.store (m s).2.store

theorem shapePreserving_bind {α β : Type} {m : DbM α} {k : α → DbM β}
    (hm : ShapePreserving m) (hk : ∀ a, ShapePreserving (k a)) :
    ShapePreserving (DbM.bind m k) := by
  intro s
  rcases hms : m s with ⟨v, s1⟩
  have h1 := hm s
  rw [hms] at h1
  simp only at h1
  show sameShape s.store ((DbM.bind m k) s).2.store
  rw [DbM.bind, hms]
  cases v with
  | ok a => exact sameShape_trans h1 (hk a s1)
  | error e => exact h1

theorem shapePreserving_of_store_eq {α : Type} {m : DbM α}
    (hst : ∀ s, (m s).2.store = s.store) : ShapePreserving m := by
  intro s
  rw [hst s]
  exact sameShape_refl _

theorem storeEq_bind {α β : Type} {m : DbM α} {k : α → DbM β}
    (hm : ∀ s, (m s).2.store = s.store) (hk : ∀ a s, (k a s).2.store = s.store) :
    ∀ s, (DbM.bind m k s).2.store = s.store := by
  intro s
  rcases hms : m s with ⟨v, s1⟩
  have h1 := hm s
  rw [hms] at h1
  simp only at h1
  show (DbM.bind m k s).2.store = s.store
  rw [DbM.bind, hms]
  cases v with
  | ok a =>
    show (k a s1).2.store = s.store
    rw [hk a s1, h1]
  | error e => exact h1

theorem storeEq_block_id_by_hash (h : String) :
    ∀ s, (block_id_by_hash h s).2.store = s.store := by
  intro s
  unfold block_id_by_hash
  rcases hp : cachePeek s.cache h with _ | bb
  · simp only [hp]
    rcases hr : s.store.blockByHash h with _ | row <;> simp only [hr]
  · simp only [hp]

theorem storeEq_block_ids_by_hashes (hs : List String) :
    ∀ s, (block_ids_by_hashes hs s).2.store = s.store := by
  induction hs with
  | nil => intro s; rfl
  | cons p rest ih =>
    refine storeEq_bind (storeEq_block_id_by_hash p) (fun i => ?_)
    exact storeEq_bind ih (fun l s => rfl)

theorem storeEq_orDefault {α : Type} {m : DbM α} (d : α)
    (hm : ∀ s, (m s).2.store = s.store) :
    ∀ s, (DbM.orDefault m d s).2.store = s.store := by
  intro s
  rcases hms : m s with ⟨v, s1⟩
  have h1 := hm s
  rw [hms] at h1
  simp only at h1
  show (DbM.orDefault m d s).2.store = s.store
  rw [DbM.orDefault, hms]
  cases v with
  | ok a => exact h1
  | error e => exact h1

theorem sameShape_updateBlocks (st : Store) (F : Block → Block)
    (hhash : ∀ b, (F b).block_hash = b.block_hash)
    (hht : ∀ b, (F b).height = b.height)
    (hhgi : ∀ b, (F b).height_group_index = b.height_group_index) :
    sameShape st { st with blocks := st.blocks.map F } := by
  constructor
  · intro h
    unfold Store.blockByHash
    simp only
    rw [find?_map_of_pred F (fun b => b.block_hash == h) (fun b => by simp only [hhash]),
      Option.map_map]
    rcases hr : st.blocks.find? (fun b => b.block_hash == h) with _ | r
    · rw [hr]
      rfl
    · rw [hr]
      simp only [Option.map_some', Function.comp_apply]
      rw [hht, hhgi]
  · rfl

theorem shapePreserving_update_block_selected_parent (bid pid : Nat) :
    ShapePreserving (update_block_selected_parent bid pid) := by
  intro s
  rw [update_block_selected_parent, DbM.modifyStore]
  refine sameShape_updateBlocks s.store _ ?_ ?_ ?_ <;>
    · intro b
      by_cases hb : (b.id == bid) = true
      · rw [if_pos hb]
      · rw [if_neg hb]

theorem shapePreserving_update_block_merge_set (bid : Nat) (reds blues : List Nat) :
    ShapePreserving (update_block_merge_set bid reds blues) := by
  intro s
  rw [update_block_merge_set, DbM.modifyStore]
  refine sameShape_updateBlocks s.store _ ?_ ?_ ?_ <;>
    · intro b
      by_cases hb : (b.id == bid) = true
      · rw [if_pos hb]
      · rw [if_neg hb]

/-- The verbose phase never changes a row's height or height group index
and never touches the height_groups table. -/
theorem shapePreserving_verboseUpdate (vd : VerboseData) (h : String) :
    ShapePreserving (verboseUpdate vd h) := by
  unfold verboseUpdate
  refine shapePreserving_bind
    (shapePreserving_of_store_eq (storeEq_block_id_by_hash _)) (fun spid => ?_)
  refine shapePreserving_bind
    (shapePreserving_of_store_eq (storeEq_block_id_by_hash _)) (fun bid => ?_)
  refine shapePreserving_bind (shapePreserving_update_block_selected_parent _ _)
    (fun _ => ?_)
  refine shapePreserving_bind (shapePreserving_of_store_eq
    (storeEq_orDefault [] (storeEq_block_ids_by_hashes _))) (fun reds => ?_)
  refine shapePreserving_bind (shapePreserving_of_store_eq
    (storeEq_orDefault [] (storeEq_block_ids_by_hashes _))) (fun blues => ?_)
  exact shapePreserving_update_block_merge_set _ _ _

/-- The verbose phase never changes a row's height or height group index
and never touches the height_groups table. -/
theorem shapePreserving_verbosePhase (node : String → Option RpcBlock) (h : String) :
    ShapePreserving (verbosePhase node h) := by
  unfold verbosePhase
  rcases hnode : node h with _ | rb
  · exact shapePreserving_of_store_eq (fun s => rfl)
  · show ShapePreserving (match rb.verbose_data with
      | none => DbM.pure ()
      | some vd => if vd.is_header_only then DbM.pure () else verboseUpdate vd h)
    rcases hvd : rb.verbose_data with _ | vd
    · exact shapePreserving_of_store_eq (fun s => rfl)
    · show ShapePreserving (if vd.is_header_only then DbM.pure () else verboseUpdate vd h)
      by_cases hho : vd.is_header_only = true
      · rw [if_pos hho]
        exact shapePreserving_of_store_eq (fun s => rfl)
      · rw [if_neg hho]
        exact shapePreserving_verboseUpdate vd h

/-- Executing process_block_static on an unseen block runs the insert
branch and hands the post-insert state to the verbose phase. -/
theorem process_block_static_new (node : String → Option RpcBlock) (block : RpcBlock)
    (s : DbState) (hc : CacheCoherent s)
    (hnew : s.store.hasBlockHash block.hash = false) :
    ∃ s2, process_block_static node block s = verbosePhase node block.hash s2 ∧
      s2.store.blockByHash block.hash = some (newRow s.store block) ∧
      s2.store.heightGroupSize (newHeight s.store block) =
        s.store.heightGroupSize (newHeight s.store block) + 1 := by
  rcases hde : does_block_exist block.hash s with ⟨v, s1⟩
  have hspec := does_block_exist_spec block.hash s hc
  rw [hde] at hspec
  obtain ⟨hv, hs1, hc1⟩ := hspec
  simp only at hv hs1
  rw [hnew] at hv
  have hnew1 : s1.store.hasBlockHash block.hash = false := by rw [hs1]; exact hnew
  obtain ⟨s2, hins, hrow, hhgs⟩ := insertNewBlock_spec block s1 hc1 hnew1
  rw [hs1] at hrow hhgs
  refine ⟨s2, ?_, hrow, hhgs⟩
  rw [process_block_static]
  show DbM.bind _ _ s = _
  rw [DbM.bind, hde, hv]
  show DbM.bind _ _ s1 = _
  rw [DbM.bind]
  have htrue : (!false) = true := rfl
  rw [if_pos htrue, hins]

/-- C3: when single-block processing inserts a block that is not yet
stored, the inserted row's height is one more than the maximum height of
its stored parents (0 with no stored parents), its height_group_index
equals the height group's size before the insert, and that height group's
size is one greater after processing. -/
theorem C3_process_block_insert (node : String → Option RpcBlock) (block : RpcBlock)
    (s : DbState) (hc : CacheCoherent s)
    (hnew : s.store.hasBlockHash block.hash = false) :
    ∃ row : Block,
      (process_block_static node block s).2.store.blockByHash block.hash = some row ∧
      row.height_group_index = s.store.heightGroupSize row.height ∧
      (process_block_static node block s).2.store.heightGroupSize row.height =
        s.store.heightGroupSize row.height + 1 ∧
      (∀ p ∈ block.parents, s.store.hasBlockHash p = true →
        s.store.blockHeightOf p < row.height) ∧
      ((∀ p ∈ block.parents, s.store.hasBlockHash p = false) → row.height = 0) ∧
      (0 < row.height → ∃ p, p ∈ block.parents ∧ s.store.hasBlockHash p = true ∧
        s.store.blockHeightOf p + 1 = row.height) := by
  obtain ⟨s2, hexec, hrow, hhgs⟩ := process_block_static_new node block s hc hnew
  rw [hexec]
  obtain ⟨hmap, hhg_eq⟩ := shapePreserving_verbosePhase node block.hash s2
  have htriple := hmap block.hash
  rw [hrow] at htriple
  rcases hfin : (verbosePhase node block.hash s2).2.store.blockByHash block.hash with _ | row
  · rw [hfin] at htriple
    simp at htriple
  · rw [hfin] at htriple
    simp only [Option.map_some'] at htriple
    injection htriple with htriple
    have hh : row.height = newHeight s.store block := congrArg Prod.fst htriple
    have hg : row.height_group_index = s.store.heightGroupSize (newHeight s.store block) :=
      congrArg Prod.snd htriple
    have hsize : ∀ ht, (verbosePhase node block.hash s2).2.store.heightGroupSize ht =
        s2.store.heightGroupSize ht := by
      intro ht
      unfold Store.heightGroupSize
      rw [hhg_eq]
    refine ⟨row, rfl, ?_, ?_, ?_, ?_, ?_⟩
    · rw [hg, hh]
    · rw [hsize, hh]
      exact hhgs
    · intro p hp hstored
      rw [hh]
      unfold newHeight heightFromParents
      have hmem : s.store.blockHeightOf p ∈
          (storedParents s.store block).map s.store.blockHeightOf :=
        List.mem_map_of_mem _ (List.mem_filter.mpr ⟨hp, hstored⟩)
      rcases hmax : listMax ((storedParents s.store block).map s.store.blockHeightOf)
        with _ | m
      · rw [(listMax_eq_none_iff _).mp hmax] at hmem
        cases hmem
      · exact Nat.lt_succ_of_le (listMax_le _ _ hmem m hmax)
    · intro hall
      rw [hh]
      unfold newHeight heightFromParents
      have hnil : storedParents s.store block = [] := by
        unfold storedParents
        rw [List.filter_eq_nil_iff]
        intro p hp
        simp [hall p hp]
      rw [hnil]
      rfl
    · intro hpos
      rw [hh] at hpos
      rw [hh]
      unfold newHeight heightFromParents at hpos ⊢
      rcases hmax : listMax ((storedParents s.store block).map s.store.blockHeightOf)
        with _ | m
      · rw [hmax] at hpos
        have hzero : (match (none : Option Nat) with
          | some m => m + 1 | none => 0) = 0 := rfl
        rw [hzero] at hpos
        exact absurd hpos (lt_irrefl 0)
      · have hmem := listMax_mem _ m hmax
        obtain ⟨p, hpmem, hpe⟩ := List.mem_map.mp hmem
        obtain ⟨hp, hstored⟩ := List.mem_filter.mp hpmem
        refine ⟨p, hp, hstored, ?_⟩
        show s.store.blockHeightOf p + 1 = m + 1
        rw [hpe]

/-- Concrete store for the C3 and C7 witnesses: two stored parent blocks
at heights 3 and 5, and a pre-existing height group of size 2 at height 6. -/
def c3Store : Store :=
  { blocks := [mkRow 1 "p1" 3, mkRow 2 "p2" 5], next_id := 3,
    edges := [], height_groups := [{ height := 6, size := 2 }], app_config := none }

/-- Concrete incoming block for the C3 and C7 witnesses: two stored
parents and one unknown parent. -/
def c3Block : RpcBlock :=
  { hash := "c", timestamp := 0, daa_score := 7, parents := ["p1", "p2", "zz"],
    verbose_data := none }

/-- Witness for C3 at a concrete store and block (the node oracle fails;
the insert facts hold regardless). -/
theorem C3_witness :
    CacheCoherent { store := c3Store, cache := [] } ∧
    c3Store.hasBlockHash c3Block.hash = false ∧
    ∃ row : Block,
      (process_block_static (fun _ => none) c3Block
        { store := c3Store, cache := [] }).2.store.blockByHash c3Block.hash = some row ∧
      row.height_group_index = c3Store.heightGroupSize row.height ∧
      (process_block_static (fun _ => none) c3Block
        { store := c3Store, cache := [] }).2.store.heightGroupSize row.height =
        c3Store.heightGroupSize row.height + 1 ∧
      (∀ p ∈ c3Block.parents, c3Store.hasBlockHash p = true →
        c3Store.blockHeightOf p < row.height) ∧
      ((∀ p ∈ c3Block.parents, c3Store.hasBlockHash p = false) → row.height = 0) ∧
      (0 < row.height → ∃ p, p ∈ c3Block.parents ∧ c3Store.hasBlockHash p = true ∧
        c3Store.blockHeightOf p + 1 = row.height) :=
  ⟨cacheCoherent_nil c3Store, by decide,
    C3_process_block_insert (fun _ => none) c3Block { store := c3Store, cache := [] }
      (cacheCoherent_nil c3Store) (by decide)⟩

/-- C7: when the refetched node block has no verbose data or is
header-only, processing returns without error and the freshly inserted
row keeps color gray, a null selected parent and empty merge sets. -/
theorem C7_header_only_early_return (node : String → Option RpcBlock) (block : RpcBlock)
    (nb : RpcBlock) (s : DbState) (hc : CacheCoherent s)
    (hnew : s.store.hasBlockHash block.hash = false)
    (hnb : node block.hash = some nb)
    (hearly : nb.verbose_data = none ∨
      ∃ vd, nb.verbose_data = some vd ∧ vd.is_header_only = true) :
    (process_block_static node block s).1 = Except.ok () ∧
    ∃ row, (process_block_static node block s).2.store.blockByHash block.hash = some row ∧
      row.color = COLOR_GRAY ∧ row.selected_parent_id = none ∧
      row.merge_set_red_ids = [] ∧ row.merge_set_blue_ids = [] := by
  obtain ⟨s2, hexec, hrow, _⟩ := process_block_static_new node block s hc hnew
  have hvp : verbosePhase node block.hash s2 = (Except.ok (), s2) := by
    unfold verbosePhase
    rw [hnb]
    show (match nb.verbose_data with
      | none => DbM.pure ()
      | some vd => if vd.is_header_only then DbM.pure ()
        else verboseUpdate vd block.hash) s2 = (Except.ok (), s2)
    rcases hearly with hnone | ⟨vd, hvd, hho⟩
    · rw [hnone]
      rfl
    · rw [hvd]
      show (if vd.is_header_only then DbM.pure ()
        else verboseUpdate vd block.hash) s2 = (Except.ok (), s2)
      rw [if_pos hho]
      rfl
  rw [hexec, hvp]
  exact ⟨rfl, newRow s.store block, hrow, rfl, rfl, rfl, rfl⟩

/-- Concrete header-only node block for the C7 witness. -/
def c7nb : RpcBlock :=
  { hash := "c", timestamp := 0, daa_score := 7, parents := ["p1", "p2", "zz"],
    verbose_data := some
      { selected_parent_hash := "p2", merge_set_blues_hashes := ["p1"],
        merge_set_reds_hashes := [], is_header_only := true } }

/-- Witness for C7 at a concrete store, block and header-only node
response. -/
theorem C7_witness :
    CacheCoherent { store := c3Store, cache := [] } ∧
    c3Store.hasBlockHash c3Block.hash = false ∧
    ((fun (_ : String) => some c7nb) c3Block.hash = some c7nb) ∧
    ((process_block_static (fun _ => some c7nb) c3Block
        { store := c3Store, cache := [] }).1 = Except.ok () ∧
      ∃ row, (process_block_static (fun _ => some c7nb) c3Block
          { store := c3Store, cache := [] }).2.store.blockByHash c3Block.hash = some row ∧
        row.color = COLOR_GRAY ∧ row.selected_parent_id = none ∧
        row.merge_set_red_ids = [] ∧ row.merge_set_blue_ids = []) :=
  ⟨cacheCoherent_nil c3Store, by decide, rfl,
    C7_header_only_early_return (fun _ => some c7nb) c3Block c7nb
      { store := c3Store, cache := [] } (cacheCoherent_nil c3Store) (by decide) rfl
      (Or.inr ⟨_, rfl, rfl⟩)⟩

/-- rpc_client/types.rs, VirtualChainChangedNotification: the removed and
added chain block hashes. -/
structure VirtualChainChangedNotification where
  removed_chain_block_hashes : List String
  added_chain_block_hashes : List String
  deriving DecidableEq, Inhabited

/-- HashMap::insert over an id-keyed association list: replace the
existing binding or append a new one. -/
def hmInsert {β : Type} (l : List (Nat × β)) (k : Nat) (v : β) : List (Nat × β) :=
  if l.any (fun e => e.1 == k) then
    l.map (fun e => if e.1 == k then (k, v) else e)
  else l ++ [(k, v)]

/-- HashMap::get over an id-keyed association list. -/
def hmLookup {β : Type} : List (Nat × β) → Nat → Option β
  | [], _ => none
  | e :: rest, k => if e.1 == k then some e.2 else hmLookup rest k

/-- Rust: if let Ok(a) = m: run fOk on success, fall through on error. -/
def DbM.tryBind {α β : Type} (m : DbM α) (fOk : α → DbM β) (fErr : DbM β) : DbM β := fun s =>
  match m s with
  | (Except.ok a, s1) => fOk a s1
  | (Except.error _, s1) => fErr s1

/-- processing/mod.rs, the common shape of the virtual-chain handler's
collection loops (membership flags and merge-set colors): record the
given value for every hash whose id resolves locally, silently skipping
the others (Rust: if let Ok(id) = block_id_by_hash). -/
def collectIdsLoop {β : Type} (v : β) : List String → List (Nat × β) → DbM (List (Nat × β))
  | [], m => DbM.pure m
  | h :: rest, m =>
    DbM.tryBind (block_id_by_hash h)
      (fun bid => collectIdsLoop v rest (hmInsert m bid v))
      (collectIdsLoop v rest m)

/-- processing/mod.rs, the two membership loops of the virtual-chain
handler. -/
def vspcFlagLoop (flag : Bool) : List String → List (Nat × Bool) → DbM (List (Nat × Bool)) :=
  collectIdsLoop flag

/-- processing/mod.rs, the inner merge-set loops of the virtual-chain
handler. -/
def colorHashesLoop (color : String) :
    List String → List (Nat × String) → DbM (List (Nat × String)) :=
  collectIdsLoop color

/-- processing/mod.rs, the outer color loop of the virtual-chain handler:
fetch each added chain block from the node (propagating node failures),
and when verbose data is present paint its merge set, blues then reds. -/
def colorsLoop (node : String → Option RpcBlock) :
    List String → List (Nat × String) → DbM (List (Nat × String))
  | [], m => DbM.pure m
  | a :: rest, m => fun s =>
    match node a with
    | none => (Except.error (DbError.rpcError a), s)
    | some rb =>
      match rb.verbose_data with
      | none => colorsLoop node rest m s
      | some vd =>
        (DbM.bind (colorHashesLoop COLOR_BLUE vd.merge_set_blues_hashes m) (fun m1 =>
          DbM.bind (colorHashesLoop COLOR_RED vd.merge_set_reds_hashes m1) (fun m2 =>
            colorsLoop node rest m2))) s

/-- processing/mod.rs, Processing::process_virtual_chain_changed_notification
(the transaction body): apply the membership delta for removed then added
chain blocks, then repaint the merge sets of the added chain blocks. -/
def process_virtual_chain_changed_notification (node : String → Option RpcBlock)
    (notif : VirtualChainChangedNotification) : DbM Unit :=
  DbM.bind (vspcFlagLoop false notif.removed_chain_block_hashes []) (fun m0 =>
    DbM.bind (vspcFlagLoop true notif.added_chain_block_hashes m0) (fun m1 =>
      DbM.bind (update_block_is_in_virtual_selected_parent_chain m1) (fun _ =>
        DbM.bind (colorsLoop node notif.added_chain_block_hashes []) (fun m2 =>
          update_block_colors m2))))

/-- The hash resolves locally to exactly this id. -/
def resolvesTo (st : Store) (h : String) (i : Nat) : Prop :=
  (st.blockByHash h).map Block.id = some i

/-- All stored rows carry distinct ids. -/
def StoreIdsUnique (st : Store) : Prop :=
  ∀ b1 b2, b1 ∈ st.blocks → b2 ∈ st.blocks → b1.id = b2.id → b1 = b2

/-- The pure map a collection loop computes: for each hash in order, the
resolved id is bound to the value, unresolved hashes are skipped. -/
def collectIds {β : Type} (st : Store) (v : β) (hs : List String) (m : List (Nat × β)) :
    List (Nat × β) :=
  hs.foldl (fun m h =>
    match st.blockByHash h with
    | some row => hmInsert m row.id v
    | none => m) m

/-- The pure color map the whole color loop computes. -/
def collectColors (st : Store) (node : String → Option RpcBlock) (as : List String)
    (m : List (Nat × String)) : List (Nat × String) :=
  as.foldl (fun m a =>
    match node a with
    | none => m
    | some rb =>
      match rb.verbose_data with
      | none => m
      | some vd =>
        collectIds st COLOR_RED vd.merge_set_reds_hashes
          (collectIds st COLOR_BLUE vd.merge_set_blues_hashes m)) m

/-- Row-level application of a list of per-id updates: each (id, v) pair
whose id matches the row applies the update with v. -/
def applyPairs {β : Type} (upd : Block → β → Block) (ps : List (Nat × β)) (b : Block) :
    Block :=
  ps.foldl (fun b p => if b.id == p.1 then upd b p.2 else b) b

/-- Row-level effect of update_block_is_in_virtual_selected_parent_chain. -/
def applyVspc (ps : List (Nat × Bool)) (b : Block) : Block :=
  applyPairs (fun b v => { b with is_in_virtual_selected_parent_chain := v }) ps b

/-- Row-level effect of update_block_colors. -/
def applyColors (ps : List (Nat × String)) (b : Block) : Block :=
  applyPairs (fun b v => { b with color := v }) ps b

theorem hmLookup_mapReplace {β : Type} (k : Nat) (v : β) :
    ∀ l : List (Nat × β), l.any (fun e => e.1 == k) = true →
    hmLookup (l.map (fun e => if e.1 == k then (k, v) else e)) k = some v := by
  intro l
  induction l with
  | nil => intro h; cases h
  | cons e rest ih =>
    intro hany
    by_cases hb : (e.1 == k) = true
    · rw [List.map_cons, if_pos hb, hmLookup, if_pos (by simp)]
    · rw [List.map_cons, if_neg hb, hmLookup, if_neg hb]
      rw [List.any_cons] at hany
      rcases Bool.or_eq_true _ _ |>.mp hany with h1 | h1
      · exact absurd h1 hb
      · exact ih h1

theorem hmLookup_append_self {β : Type} (k : Nat) (v : β) :
    ∀ l : List (Nat × β), l.any (fun e => e.1 == k) = false →
    hmLookup (l ++ [(k, v)]) k = some v := by
  intro l
  induction l with
  | nil => intro _; rw [List.nil_append, hmLookup, if_pos (by simp)]
  | cons e rest ih =>
    intro hany
    rw [List.any_cons] at hany
    have h1 : (e.1 == k) = false := by
      cases hb : (e.1 == k) with
      | true => rw [hb] at hany; simp at hany
      | false => rfl
    have h2 : rest.any (fun e => e.1 == k) = false := by
      cases hb : rest.any (fun e => e.1 == k) with
      | true => rw [hb] at hany; simp at hany
      | false => rfl
    rw [List.cons_append, hmLookup, if_neg (by rw [h1]; exact Bool.false_ne_true)]
    exact ih h2

theorem hmLookup_insert_self {β : Type} (l : List (Nat × β)) (k : Nat) (v : β) :
    hmLookup (hmInsert l k v) k = some v := by
  unfold hmInsert
  by_cases hany : l.any (fun e => e.1 == k) = true
  · rw [if_pos hany]
    exact hmLookup_mapReplace k v l hany
  · rw [if_neg hany]
    exact hmLookup_append_self k v l (Bool.not_eq_true _ |>.mp hany)

theorem hmLookup_map_ne {β : Type} (k k' : Nat) (v : β) (hne : k' ≠ k) :
    ∀ l : List (Nat × β),
    hmLookup (l.map (fun e => if e.1 == k then (k, v) else e)) k' = hmLookup l k' := by
  intro l
  induction l with
  | nil => rfl
  | cons e rest ih =>
    by_cases hb : (e.1 == k) = true
    · rw [List.map_cons, if_pos hb]
      have hek : e.1 = k := beq_iff_eq.mp hb
      have h1 : ((k, v).1 == k') = false := by
        simp only [beq_eq_false_iff_ne]
        exact fun hc => hne hc.symm
      have h2 : (e.1 == k') = false := by
        rw [hek]
        simp only [beq_eq_false_iff_ne]
        exact fun hc => hne hc.symm
      rw [hmLookup, if_neg (by rw [h1]; exact Bool.false_ne_true),
        hmLookup, if_neg (by rw [h2]; exact Bool.false_ne_true)]
      exact ih
    · rw [List.map_cons, if_neg hb]
      by_cases hb2 : (e.1 == k') = true
      · rw [hmLookup, if_pos hb2, hmLookup, if_pos hb2]
      · rw [hmLookup, if_neg hb2, hmLookup, if_neg hb2]
        exact ih

theorem hmLookup_append_ne {β : Type} (k k' : Nat) (v : β) (hne : k' ≠ k) :
    ∀ l : List (Nat × β), hmLookup (l ++ [(k, v)]) k' = hmLookup l k' := by
  intro l
  induction l with
  | nil =>
    have h1 : (((k, v) : Nat × β).1 == k') = false := by
      simp only [beq_eq_false_iff_ne]
      exact fun hc => hne hc.symm
    show hmLookup [(k, v)] k' = hmLookup ([] : List (Nat × β)) k'
    simp only [hmLookup, h1, Bool.false_eq_true, if_false]
  | cons e rest ih =>
    by_cases hb : (e.1 == k') = true
    · rw [List.cons_append, hmLookup, if_pos hb, hmLookup, if_pos hb]
    · rw [List.cons_append, hmLookup, if_neg hb, hmLookup, if_neg hb]
      exact ih

theorem hmLookup_insert_ne {β : Type} (l : List (Nat × β)) (k k' : Nat) (v : β)
    (hne : k' ≠ k) : hmLookup (hmInsert l k v) k' = hmLookup l k' := by
  unfold hmInsert
  by_cases hany : l.any (fun e => e.1 == k) = true
  · rw [if_pos hany]
    exact hmLookup_map_ne k k' v hne l
  · rw [if_neg hany]
    exact hmLookup_append_ne k k' v hne l

theorem hmLookup_eq_none_iff {β : Type} :
    ∀ (l : List (Nat × β)) (k : Nat), hmLookup l k = none ↔ k ∉ l.map Prod.fst := by
  intro l
  induction l with
  | nil => intro k; simp [hmLookup]
  | cons e rest ih =>
    intro k
    by_cases hb : (e.1 == k) = true
    · rw [hmLookup, if_pos hb]
      simp only [List.map_cons, List.mem_cons]
      constructor
      · intro h; cases h
      · intro h
        exact absurd (Or.inl (beq_iff_eq.mp hb).symm) h
    · rw [hmLookup, if_neg hb]
      simp only [List.map_cons, List.mem_cons]
      rw [ih k]
      constructor
      · intro h hc
        rcases hc with hc | hc
        · exact hb (beq_iff_eq.mpr hc.symm)
        · exact h hc
      · intro h hc
        exact h (Or.inr hc)

/-- Preservation: a binding already carrying the collected value survives
a whole collection pass with the same value. -/
theorem collectIds_preserve {β : Type} (st : Store) (v : β) :
    ∀ (hs : List String) (m : List (Nat × β)) (i : Nat),
    hmLookup m i = some v → hmLookup (collectIds st v hs m) i = some v := by
  intro hs
  induction hs with
  | nil => intro m i hm; exact hm
  | cons h rest ih =>
    intro m i hm
    show hmLookup (collectIds st v rest
      (match st.blockByHash h with
       | some row => hmInsert m row.id v
       | none => m)) i = some v
    rcases hby : st.blockByHash h with _ | row
    · exact ih m i hm
    · refine ih _ i ?_
      show hmLookup (hmInsert m row.id v) i = some v
      by_cases hid : row.id = i
      · rw [hid]
        exact hmLookup_insert_self m i v
      · rw [hmLookup_insert_ne m row.id i v (fun hc => hid hc.symm)]
        exact hm

/-- Establishment: if some hash in the pass resolves to the id, the pass
leaves the id bound to the collected value. -/
theorem collectIds_establish {β : Type} (st : Store) (v : β) :
    ∀ (hs : List String) (m : List (Nat × β)) (i : Nat),
    (∃ h ∈ hs, resolvesTo st h i) →
    hmLookup (collectIds st v hs m) i = some v := by
  intro hs
  induction hs with
  | nil =>
    intro m i hex
    obtain ⟨h, hh, _⟩ := hex
    cases hh
  | cons h rest ih =>
    intro m i hex
    obtain ⟨h2, hh2, hres⟩ := hex
    show hmLookup (collectIds st v rest
      (match st.blockByHash h with
       | some row => hmInsert m row.id v
       | none => m)) i = some v
    rcases List.mem_cons.mp hh2 with rfl | hmem
    · unfold resolvesTo at hres
      rcases hby : st.blockByHash h2 with _ | row
      · rw [hby] at hres
        cases hres
      · rw [hby] at hres
        simp only [Option.map_some'] at hres
        injection hres with hres
        refine collectIds_preserve st v rest _ i ?_
        show hmLookup (hmInsert m row.id v) i = some v
        rw [hres]
        exact hmLookup_insert_self m i v
    · rcases hby : st.blockByHash h with _ | row
      · exact ih m i ⟨h2, hmem, hres⟩
      · exact ih _ i ⟨h2, hmem, hres⟩

/-- Skipping: if no hash in the pass resolves to the id, the pass leaves
the binding of the id unchanged. -/
theorem collectIds_skip {β : Type} (st : Store) (v : β) :
    ∀ (hs : List String) (m : List (Nat × β)) (i : Nat),
    (∀ h ∈ hs, ¬resolvesTo st h i) →
    hmLookup (collectIds st v hs m) i = hmLookup m i := by
  intro hs
  induction hs with
  | nil => intro m i _; rfl
  | cons h rest ih =>
    intro m i hall
    show hmLookup (collectIds st v rest
      (match st.blockByHash h with
       | some row => hmInsert m row.id v
       | none => m)) i = hmLookup m i
    rcases hby : st.blockByHash h with _ | row
    · exact ih m i (fun h2 hm => hall h2 (List.mem_cons_of_mem h hm))
    · have hne : row.id ≠ i := by
        intro hc
        refine hall h (List.mem_cons_self _ _) ?_
        unfold resolvesTo
        rw [hby, Option.map_some', hc]
      rw [ih _ i (fun h2 hm => hall h2 (List.mem_cons_of_mem h hm))]
      exact hmLookup_insert_ne m row.id i v (fun hc => hne hc.symm)

/-- A pass over a list of pairs whose ids all miss the row leaves the row
unchanged. -/
theorem applyPairs_lookup_none {β : Type} (upd : Block → β → Block) :
    ∀ (ps : List (Nat × β)) (b : Block), hmLookup ps b.id = none →
    applyPairs upd ps b = b := by
  intro ps
  induction ps with
  | nil => intro b _; rfl
  | cons p rest ih =>
    intro b hl
    rw [hmLookup] at hl
    by_cases hpos : (p.1 == b.id) = true
    · rw [if_pos hpos] at hl
      cases hl
    · rw [if_neg hpos] at hl
      have hbb : (b.id == p.1) = false := by
        simp only [beq_eq_false_iff_ne]
        intro hc
        exact hpos (beq_iff_eq.mpr hc.symm)
      show applyPairs upd rest (if b.id == p.1 then upd b p.2 else b) = b
      rw [if_neg (by rw [hbb]; exact Bool.false_ne_true)]
      exact ih b hl

/-- Under distinct pair ids, the pass applies exactly the update the map
holds for the row id. -/
theorem applyPairs_lookup_some {β : Type} (upd : Block → β → Block)
    (hid : ∀ b v, (upd b v).id = b.id) :
    ∀ (ps : List (Nat × β)), (ps.map Prod.fst).Nodup →
    ∀ (b : Block) (v : β), hmLookup ps b.id = some v → applyPairs upd ps b = upd b v := by
  intro ps
  induction ps with
  | nil => intro _ b v hl; cases hl
  | cons p rest ih =>
    intro hnd b v hl
    rw [List.map_cons, List.nodup_cons] at hnd
    rw [hmLookup] at hl
    by_cases hpos : (p.1 == b.id) = true
    · rw [if_pos hpos] at hl
      injection hl with hl
      have hbb : (b.id == p.1) = true := beq_iff_eq.mpr (beq_iff_eq.mp hpos).symm
      show applyPairs upd rest (if b.id == p.1 then upd b p.2 else b) = upd b v
      rw [if_pos hbb, hl]
      refine applyPairs_lookup_none upd rest (upd b v) ?_
      rw [hmLookup_eq_none_iff, hid b v]
      intro hmem
      refine hnd.1 ?_
      rw [beq_iff_eq.mp hpos]
      exact hmem
    · rw [if_neg hpos] at hl
      have hbb : (b.id == p.1) = false := by
        simp only [beq_eq_false_iff_ne]
        intro hc
        exact hpos (beq_iff_eq.mpr hc.symm)
      show applyPairs upd rest (if b.id == p.1 then upd b p.2 else b) = upd b v
      rw [if_neg (by rw [hbb]; exact Bool.false_ne_true)]
      exact ih hnd.2 b v hl

/-- Any row field an update leaves alone survives a whole pass. -/
theorem applyPairs_field {β γ : Type} (upd : Block → β → Block) (f : Block → γ)
    (hf : ∀ b v, f (upd b v) = f b) :
    ∀ (ps : List (Nat × β)) (b : Block), f (applyPairs upd ps b) = f b := by
  intro ps
  induction ps with
  | nil => intro b; rfl
  | cons p rest ih =>
    intro b
    show f (applyPairs upd rest (if b.id == p.1 then upd b p.2 else b)) = f b
    rw [ih]
    by_cases hb : (b.id == p.1) = true
    · rw [if_pos hb, hf]
    · rw [if_neg hb]

theorem mapReplace_keys {β : Type} (k : Nat) (v : β) :
    ∀ l : List (Nat × β),
    (l.map (fun e => if e.1 == k then (k, v) else e)).map Prod.fst = l.map Prod.fst := by
  intro l
  induction l with
  | nil => rfl
  | cons e rest ih =>
    by_cases hb : (e.1 == k) = true
    · rw [List.map_cons, if_pos hb, List.map_cons, List.map_cons, ih,
        show ((k, v) : Nat × β).1 = e.1 from (beq_iff_eq.mp hb).symm]
    · rw [List.map_cons, if_neg hb, List.map_cons, List.map_cons, ih]

/-- hmInsert keeps the pair ids distinct. -/
theorem hmInsert_keys_nodup {β : Type} (k : Nat) (v : β) (l : List (Nat × β))
    (h : (l.map Prod.fst).Nodup) : ((hmInsert l k v).map Prod.fst).Nodup := by
  unfold hmInsert
  by_cases hany : l.any (fun e => e.1 == k) = true
  · rw [if_pos hany, mapReplace_keys]
    exact h
  · rw [if_neg hany, List.map_append]
    have hknot : k ∉ l.map Prod.fst := by
      intro hmem
      obtain ⟨e, he, hek⟩ := List.mem_map.mp hmem
      exact hany (List.any_eq_true.mpr ⟨e, he, beq_iff_eq.mpr hek⟩)
    rw [List.nodup_append]
    refine ⟨h, List.nodup_singleton _, ?_⟩
    intro a ha hb
    rw [show ([(k, v)] : List (Nat × β)).map Prod.fst = [k] from rfl,
      List.mem_singleton] at hb
    subst hb
    exact hknot ha

/-- Unfolding collectIds one hash: unresolved hash. -/
theorem collectIds_cons_none {β : Type} (st : Store) (v : β) (h : String)
    (rest : List String) (m : List (Nat × β)) (hbh : st.blockByHash h = none) :
    collectIds st v (h :: rest) m = collectIds st v rest m := by
  show collectIds st v rest
    (match st.blockByHash h with
     | some row => hmInsert m row.id v
     | none => m) = collectIds st v rest m
  rw [hbh]

/-- Unfolding collectIds one hash: resolved hash. -/
theorem collectIds_cons_some {β : Type} (st : Store) (v : β) (h : String)
    (rest : List String) (m : List (Nat × β)) (row : Block)
    (hbh : st.blockByHash h = some row) :
    collectIds st v (h :: rest) m = collectIds st v rest (hmInsert m row.id v) := by
  show collectIds st v rest
    (match st.blockByHash h with
     | some row => hmInsert m row.id v
     | none => m) = _
  rw [hbh]

/-- collectIds keeps the pair ids distinct. -/
theorem collectIds_keys_nodup {β : Type} (st : Store) (v : β) :
    ∀ (hs : List String) (m : List (Nat × β)), (m.map Prod.fst).Nodup →
    ((collectIds st v hs m).map Prod.fst).Nodup := by
  intro hs
  induction hs with
  | nil => intro m hm; exact hm
  | cons h rest ih =>
    intro m hm
    rcases hbh : st.blockByHash h with _ | row
    · rw [collectIds_cons_none st v h rest m hbh]
      exact ih m hm
    · rw [collectIds_cons_some st v h rest m row hbh]
      exact ih _ (hmInsert_keys_nodup row.id v m hm)

/-- Unfolding collectColors one added block: node returned nothing. -/
theorem collectColors_cons_noblock (st : Store) (node : String → Option RpcBlock)
    (a : String) (rest : List String) (m : List (Nat × String))
    (hn : node a = none) :
    collectColors st node (a :: rest) m = collectColors st node rest m := by
  show collectColors st node rest
    (match node a with
     | none => m
     | some rb =>
       match rb.verbose_data with
       | none => m
       | some vd =>
         collectIds st COLOR_RED vd.merge_set_reds_hashes
           (collectIds st COLOR_BLUE vd.merge_set_blues_hashes m)) = _
  rw [hn]

/-- Unfolding collectColors one added block: no verbose data. -/
theorem collectColors_cons_noverbose (st : Store) (node : String → Option RpcBlock)
    (a : String) (rest : List String) (m : List (Nat × String)) (rb : RpcBlock)
    (hn : node a = some rb) (hvd : rb.verbose_data = none) :
    collectColors st node (a :: rest) m = collectColors st node rest m := by
  show collectColors st node rest
    (match node a with
     | none => m
     | some rb =>
       match rb.verbose_data with
       | none => m
       | some vd =>
         collectIds st COLOR_RED vd.merge_set_reds_hashes
           (collectIds st COLOR_BLUE vd.merge_set_blues_hashes m)) = _
  rw [hn]
  show collectColors st node rest
    (match rb.verbose_data with
     | none => m
     | some vd =>
       collectIds st COLOR_RED vd.merge_set_reds_hashes
         (collectIds st COLOR_BLUE vd.merge_set_blues_hashes m)) = _
  rw [hvd]

/-- Unfolding collectColors one added block: verbose data present. -/
theorem collectColors_cons_verbose (st : Store) (node : String → Option RpcBlock)
    (a : String) (rest : List String) (m : List (Nat × String)) (rb : RpcBlock)
    (vd : VerboseData) (hn : node a = some rb) (hvd : rb.verbose_data = some vd) :
    collectColors st node (a :: rest) m = collectColors st node rest
      (collectIds st COLOR_RED vd.merge_set_reds_hashes
        (collectIds st COLOR_BLUE vd.merge_set_blues_hashes m)) := by
  show collectColors st node rest
    (match node a with
     | none => m
     | some rb =>
       match rb.verbose_data with
       | none => m
       | some vd =>
         collectIds st COLOR_RED vd.merge_set_reds_hashes
           (collectIds st COLOR_BLUE vd.merge_set_blues_hashes m)) = _
  rw [hn]
  show collectColors st node rest
    (match rb.verbose_data with
     | none => m
     | some vd =>
       collectIds st COLOR_RED vd.merge_set_reds_hashes
         (collectIds st COLOR_BLUE vd.merge_set_blues_hashes m)) = _
  rw [hvd]

/-- collectColors keeps the pair ids distinct. -/
theorem collectColors_keys_nodup (st : Store) (node : String → Option RpcBlock) :
    ∀ (as : List String) (m : List (Nat × String)), (m.map Prod.fst).Nodup →
    ((collectColors st node as m).map Prod.fst).Nodup := by
  intro as
  induction as with
  | nil => intro m hm; exact hm
  | cons a rest ih =>
    intro m hm
    rcases hn : node a with _ | rb
    · rw [collectColors_cons_noblock st node a rest m hn]
      exact ih m hm
    · rcases hvd : rb.verbose_data with _ | vd
      · rw [collectColors_cons_noverbose st node a rest m rb hn hvd]
        exact ih m hm
      · rw [collectColors_cons_verbose st node a rest m rb vd hn hvd]
        exact ih _ (collectIds_keys_nodup st COLOR_RED _ _
          (collectIds_keys_nodup st COLOR_BLUE _ _ hm))

/-- No merge-set-blues hash of any listed added block resolves to the id. -/
def NoBlueFor (st : Store) (node : String → Option RpcBlock) (as : List String)
    (i : Nat) : Prop :=
  ∀ a ∈ as, ∀ rb vd, node a = some rb → rb.verbose_data = some vd →
    ∀ h ∈ vd.merge_set_blues_hashes, ¬resolvesTo st h i

/-- No merge-set-reds hash of any listed added block resolves to the id. -/
def NoRedFor (st : Store) (node : String → Option RpcBlock) (as : List String)
    (i : Nat) : Prop :=
  ∀ a ∈ as, ∀ rb vd, node a = some rb → rb.verbose_data = some vd →
    ∀ h ∈ vd.merge_set_reds_hashes, ¬resolvesTo st h i

/-- Some merge-set-blues hash of a listed added block resolves to the id. -/
def BlueFor (st : Store) (node : String → Option RpcBlock) (as : List String)
    (i : Nat) : Prop :=
  ∃ a ∈ as, ∃ rb vd, node a = some rb ∧ rb.verbose_data = some vd ∧
    ∃ h ∈ vd.merge_set_blues_hashes, resolvesTo st h i

/-- Some merge-set-reds hash of a listed added block resolves to the id. -/
def RedFor (st : Store) (node : String → Option RpcBlock) (as : List String)
    (i : Nat) : Prop :=
  ∃ a ∈ as, ∃ rb vd, node a = some rb ∧ rb.verbose_data = some vd ∧
    ∃ h ∈ vd.merge_set_reds_hashes, resolvesTo st h i

/-- A blue binding survives the color pass as long as no reds hash of the
pass resolves to its id. -/
theorem collectColors_preserve_blue (st : Store) (node : String → Option RpcBlock) :
    ∀ (as : List String) (m : List (Nat × String)) (i : Nat),
    hmLookup m i = some COLOR_BLUE → NoRedFor st node as i →
    hmLookup (collectColors st node as m) i = some COLOR_BLUE := by
  intro as
  induction as with
  | nil => intro m i hm _; exact hm
  | cons a rest ih =>
    intro m i hm hnored
    have hrest : NoRedFor st node rest i :=
      fun x hx => hnored x (List.mem_cons_of_mem a hx)
    rcases hn : node a with _ | rb
    · rw [collectColors_cons_noblock st node a rest m hn]
      exact ih m i hm hrest
    · rcases hvd : rb.verbose_data with _ | vd
      · rw [collectColors_cons_noverbose st node a rest m rb hn hvd]
        exact ih m i hm hrest
      · rw [collectColors_cons_verbose st node a rest m rb vd hn hvd]
        refine ih _ i ?_ hrest
        rw [collectIds_skip st COLOR_RED vd.merge_set_reds_hashes _ i
          (fun h hh => hnored a (List.mem_cons_self _ _) rb vd hn hvd h hh)]
        exact collectIds_preserve st COLOR_BLUE vd.merge_set_blues_hashes m i hm

/-- A red binding survives the color pass as long as no blues hash of the
pass resolves to its id. -/
theorem collectColors_preserve_red (st : Store) (node : String → Option RpcBlock) :
    ∀ (as : List String) (m : List (Nat × String)) (i : Nat),
    hmLookup m i = some COLOR_RED → NoBlueFor st node as i →
    hmLookup (collectColors st node as m) i = some COLOR_RED := by
  intro as
  induction as with
  | nil => intro m i hm _; exact hm
  | cons a rest ih =>
    intro m i hm hnoblue
    have hrest : NoBlueFor st node rest i :=
      fun x hx => hnoblue x (List.mem_cons_of_mem a hx)
    rcases hn : node a with _ | rb
    · rw [collectColors_cons_noblock st node a rest m hn]
      exact ih m i hm hrest
    · rcases hvd : rb.verbose_data with _ | vd
      · rw [collectColors_cons_noverbose st node a rest m rb hn hvd]
        exact ih m i hm hrest
      · rw [collectColors_cons_verbose st node a rest m rb vd hn hvd]
        refine ih _ i ?_ hrest
        refine collectIds_preserve st COLOR_RED vd.merge_set_reds_hashes _ i ?_
        rw [collectIds_skip st COLOR_BLUE vd.merge_set_blues_hashes m i
          (fun h hh => hnoblue a (List.mem_cons_self _ _) rb vd hn hvd h hh)]
        exact hm

/-- If some blues hash resolves to the id and no reds hash does, the color
pass paints the id blue. -/
theorem collectColors_blue (st : Store) (node : String → Option RpcBlock) :
    ∀ (as : List String) (m : List (Nat × String)) (i : Nat),
    BlueFor st node as i → NoRedFor st node as i →
    hmLookup (collectColors st node as m) i = some COLOR_BLUE := by
  intro as
  induction as with
  | nil =>
    intro m i hex _
    obtain ⟨a, ha, _⟩ := hex
    cases ha
  | cons a rest ih =>
    intro m i hex hnored
    have hrest : NoRedFor st node rest i :=
      fun x hx => hnored x (List.mem_cons_of_mem a hx)
    obtain ⟨a2, ha2, rb2, vd2, hn2, hvd2, hwit⟩ := hex
    rcases List.mem_cons.mp ha2 with rfl | hmem
    · rw [collectColors_cons_verbose st node a2 rest m rb2 vd2 hn2 hvd2]
      refine collectColors_preserve_blue st node rest _ i ?_ hrest
      rw [collectIds_skip st COLOR_RED vd2.merge_set_reds_hashes _ i
        (fun h hh => hnored a2 (List.mem_cons_self _ _) rb2 vd2 hn2 hvd2 h hh)]
      exact collectIds_establish st COLOR_BLUE vd2.merge_set_blues_hashes m i hwit
    · have hexr : BlueFor st node rest i := ⟨a2, hmem, rb2, vd2, hn2, hvd2, hwit⟩
      rcases hn : node a with _ | rb
      · rw [collectColors_cons_noblock st node a rest m hn]
        exact ih m i hexr hrest
      · rcases hvd : rb.verbose_data with _ | vd
        · rw [collectColors_cons_noverbose st node a rest m rb hn hvd]
          exact ih m i hexr hrest
        · rw [collectColors_cons_verbose st node a rest m rb vd hn hvd]
          exact ih _ i hexr hrest

/-- If some reds hash resolves to the id and no blues hash does, the color
pass paints the id red. -/
theorem collectColors_red (st : Store) (node : String → Option RpcBlock) :
    ∀ (as : List String) (m : List (Nat × String)) (i : Nat),
    RedFor st node as i → NoBlueFor st node as i →
    hmLookup (collectColors st node as m) i = some COLOR_RED := by
  intro as
  induction as with
  | nil =>
    intro m i hex _
    obtain ⟨a, ha, _⟩ := hex
    cases ha
  | cons a rest ih =>
    intro m i hex hnoblue
    have hrest : NoBlueFor st node rest i :=
      fun x hx => hnoblue x (List.mem_cons_of_mem a hx)
    obtain ⟨a2, ha2, rb2, vd2, hn2, hvd2, hwit⟩ := hex
    rcases List.mem_cons.mp ha2 with rfl | hmem
    · rw [collectColors_cons_verbose st node a2 rest m rb2 vd2 hn2 hvd2]
      refine collectColors_preserve_red st node rest _ i ?_ hrest
      exact collectIds_establish st COLOR_RED vd2.merge_set_reds_hashes _ i hwit
    · have hexr : RedFor st node rest i := ⟨a2, hmem, rb2, vd2, hn2, hvd2, hwit⟩
      rcases hn : node a with _ | rb
      · rw [collectColors_cons_noblock st node a rest m hn]
        exact ih m i hexr hrest
      · rcases hvd : rb.verbose_data with _ | vd
        · rw [collectColors_cons_noverbose st node a rest m rb hn hvd]
          exact ih m i hexr hrest
        · rw [collectColors_cons_verbose st node a rest m rb vd hn hvd]
          exact ih _ i hexr hrest

/-- If no blues and no reds hash of the pass resolves to the id, the color
pass leaves its binding unchanged. -/
theorem collectColors_skip (st : Store) (node : String → Option RpcBlock) :
    ∀ (as : List String) (m : List (Nat × String)) (i : Nat),
    NoBlueFor st node as i → NoRedFor st node as i →
    hmLookup (collectColors st node as m) i = hmLookup m i := by
  intro as
  induction as with
  | nil => intro m i _ _; rfl
  | cons a rest ih =>
    intro m i hnoblue hnored
    have hrestb : NoBlueFor st node rest i :=
      fun x hx => hnoblue x (List.mem_cons_of_mem a hx)
    have hrestr : NoRedFor st node rest i :=
      fun x hx => hnored x (List.mem_cons_of_mem a hx)
    rcases hn : node a with _ | rb
    · rw [collectColors_cons_noblock st node a rest m hn]
      exact ih m i hrestb hrestr
    · rcases hvd : rb.verbose_data with _ | vd
      · rw [collectColors_cons_noverbose st node a rest m rb hn hvd]
        exact ih m i hrestb hrestr
      · rw [collectColors_cons_verbose st node a rest m rb vd hn hvd]
        rw [ih _ i hrestb hrestr]
        rw [collectIds_skip st COLOR_RED vd.merge_set_reds_hashes _ i
          (fun h hh => hnored a (List.mem_cons_self _ _) rb vd hn hvd h hh)]
        exact collectIds_skip st COLOR_BLUE vd.merge_set_blues_hashes m i
          (fun h hh => hnoblue a (List.mem_cons_self _ _) rb vd hn hvd h hh)

/-- The per-pair UPDATE fold of the vspc-flag operation equals one map of
the row-level fold over the blocks table. -/
theorem vspcFold_eq (ps : List (Nat × Bool)) :
    ∀ st : Store,
    ps.foldl (fun acc p =>
      { acc with blocks := acc.blocks.map (fun b =>
          if b.id == p.1 then { b with is_in_virtual_selected_parent_chain := p.2 }
          else b) }) st
      = { st with blocks := st.blocks.map (applyVspc ps) } := by
  induction ps with
  | nil =>
    intro st
    show st = { st with blocks := st.blocks.map (applyVspc []) }
    rw [show st.blocks.map (applyVspc []) = st.blocks from List.map_id st.blocks]
  | cons p rest ih =>
    intro st
    rw [List.foldl_cons, ih]
    simp only [List.map_map]
    rfl

/-- The per-pair UPDATE fold of the color operation equals one map of the
row-level fold over the blocks table. -/
theorem colorsFold_eq (ps : List (Nat × String)) :
    ∀ st : Store,
    ps.foldl (fun acc p =>
      { acc with blocks := acc.blocks.map (fun b =>
          if b.id == p.1 then { b with color := p.2 } else b) }) st
      = { st with blocks := st.blocks.map (applyColors ps) } := by
  induction ps with
  | nil =>
    intro st
    show st = { st with blocks := st.blocks.map (applyColors []) }
    rw [show st.blocks.map (applyColors []) = st.blocks from List.map_id st.blocks]
  | cons p rest ih =>
    intro st
    rw [List.foldl_cons, ih]
    simp only [List.map_map]
    rfl

/-- Running the vspc-flag UPDATE loop: always succeeds and maps every
blocks row through applyVspc. -/
theorem update_vspc_run (ps : List (Nat × Bool)) (s : DbState) :
    update_block_is_in_virtual_selected_parent_chain ps s =
      (Except.ok (), { s with store :=
        { s.store with blocks := s.store.blocks.map (applyVspc ps) } }) := by
  show (Except.ok (), { s with store := ps.foldl _ s.store }) = _
  rw [vspcFold_eq]

/-- Running the color UPDATE loop: always succeeds and maps every blocks
row through applyColors. -/
theorem update_colors_run (ps : List (Nat × String)) (s : DbState) :
    update_block_colors ps s =
      (Except.ok (), { s with store :=
        { s.store with blocks := s.store.blocks.map (applyColors ps) } }) := by
  show (Except.ok (), { s with store := ps.foldl _ s.store }) = _
  rw [colorsFold_eq]

/-- Hash lookup through a hash-preserving row map. -/
theorem blockByHash_map_preserve (st : Store) (F : Block → Block)
    (hF : ∀ b, (F b).block_hash = b.block_hash) (h : String) :
    Store.blockByHash { st with blocks := st.blocks.map F } h =
      (st.blockByHash h).map F := by
  show (st.blocks.map F).find? (fun b => b.block_hash == h) = _
  rw [find?_map_of_pred F (fun b => b.block_hash == h)
    (fun b => by show ((F b).block_hash == h) = (b.block_hash == h); rw [hF])]
  rfl

/-- A hash-, id- and height-preserving row map keeps the cache coherent. -/
theorem cacheCoherent_mapBlocks {st : Store} {c : Cache} (F : Block → Block)
    (hh : ∀ b, (F b).block_hash = b.block_hash) (hi : ∀ b, (F b).id = b.id)
    (hht : ∀ b, (F b).height = b.height)
    (hc : CacheCoherent { store := st, cache := c }) :
    CacheCoherent { store := { st with blocks := st.blocks.map F }, cache := c } := by
  intro e he
  obtain ⟨row, hrow, hid, hht2⟩ := hc e he
  refine ⟨F row, ?_, ?_, ?_⟩
  · show Store.blockByHash { st with blocks := st.blocks.map F } e.1 = some (F row)
    rw [blockByHash_map_preserve st F hh e.1, hrow, Option.map_some']
  · rw [hi, hid]
  · rw [hht, hht2]

/-- The pure collection map is unchanged by a hash- and id-preserving row
map of the table. -/
theorem collectIds_mapBlocks {β : Type} (st : Store) (F : Block → Block)
    (hh : ∀ b, (F b).block_hash = b.block_hash) (hi : ∀ b, (F b).id = b.id) (v : β) :
    ∀ (hs : List String) (m : List (Nat × β)),
    collectIds { st with blocks := st.blocks.map F } v hs m = collectIds st v hs m := by
  intro hs
  induction hs with
  | nil => intro m; rfl
  | cons h rest ih =>
    intro m
    have hbh := blockByHash_map_preserve st F hh h
    rcases hx : st.blockByHash h with _ | row
    · rw [hx, Option.map_none'] at hbh
      rw [collectIds_cons_none _ v h rest m hbh, collectIds_cons_none st v h rest m hx,
        ih]
    · rw [hx, Option.map_some'] at hbh
      rw [collectIds_cons_some _ v h rest m _ hbh,
        collectIds_cons_some st v h rest m row hx, hi row, ih]

/-- The pure color map is unchanged by a hash- and id-preserving row map
of the table. -/
theorem collectColors_mapBlocks (st : Store) (F : Block → Block)
    (hh : ∀ b, (F b).block_hash = b.block_hash) (hi : ∀ b, (F b).id = b.id)
    (node : String → Option RpcBlock) :
    ∀ (as : List String) (m : List (Nat × String)),
    collectColors { st with blocks := st.blocks.map F } node as m =
      collectColors st node as m := by
  intro as
  induction as with
  | nil => intro m; rfl
  | cons a rest ih =>
    intro m
    rcases hn : node a with _ | rb
    · rw [collectColors_cons_noblock _ node a rest m hn,
        collectColors_cons_noblock st node a rest m hn, ih]
    · rcases hvd : rb.verbose_data with _ | vd
      · rw [collectColors_cons_noverbose _ node a rest m rb hn hvd,
          collectColors_cons_noverbose st node a rest m rb hn hvd, ih]
      · rw [collectColors_cons_verbose _ node a rest m rb vd hn hvd,
          collectColors_cons_verbose st node a rest m rb vd hn hvd,
          collectIds_mapBlocks st F hh hi COLOR_BLUE,
          collectIds_mapBlocks st F hh hi COLOR_RED, ih]

/-- Under a coherent cache, a collection loop succeeds with exactly the
pure collectIds map of the store; only the cache may change and it stays
coherent. -/
theorem collectIdsLoop_spec {β : Type} (v : β) :
    ∀ (hs : List String) (m : List (Nat × β)) (s : DbState), CacheCoherent s →
    ∃ s2, collectIdsLoop v hs m s = (Except.ok (collectIds s.store v hs m), s2) ∧
      s2.store = s.store ∧ CacheCoherent s2 := by
  intro hs
  induction hs with
  | nil =>
    intro m s hc
    exact ⟨s, rfl, rfl, hc⟩
  | cons h rest ih =>
    intro m s hc
    rcases hstep : block_id_by_hash h s with ⟨r, s1⟩
    obtain ⟨hr, hst, hcc⟩ := block_id_by_hash_spec h s hc
    rw [hstep] at hr hst hcc
    have hr2 : r = (match s.store.blockByHash h with
      | some row => Except.ok row.id
      | none => Except.error (DbError.notFound h)) := hr
    have hst2 : s1.store = s.store := hst
    have hcc2 : CacheCoherent s1 := hcc
    rcases hbh : s.store.blockByHash h with _ | row
    · rw [hbh] at hr2
      obtain ⟨s2, hrun, hsst, hcc1⟩ := ih m s1 hcc2
      rw [hst2] at hrun hsst
      refine ⟨s2, ?_, hsst, hcc1⟩
      show DbM.tryBind (block_id_by_hash h)
        (fun bid => collectIdsLoop v rest (hmInsert m bid v))
        (collectIdsLoop v rest m) s = _
      rw [DbM.tryBind, hstep, hr2]
      show collectIdsLoop v rest m s1 = _
      rw [hrun, collectIds_cons_none s.store v h rest m hbh]
    · rw [hbh] at hr2
      obtain ⟨s2, hrun, hsst, hcc1⟩ := ih (hmInsert m row.id v) s1 hcc2
      rw [hst2] at hrun hsst
      refine ⟨s2, ?_, hsst, hcc1⟩
      show DbM.tryBind (block_id_by_hash h)
        (fun bid => collectIdsLoop v rest (hmInsert m bid v))
        (collectIdsLoop v rest m) s = _
      rw [DbM.tryBind, hstep, hr2]
      show collectIdsLoop v rest (hmInsert m row.id v) s1 = _
      rw [hrun, collectIds_cons_some s.store v h rest m row hbh]

/-- Unfolding colorsLoop one added block: the node returned nothing, the
loop fails with the propagated node error. -/
theorem colorsLoop_cons_noblock (node : String → Option RpcBlock) (a : String)
    (rest : List String) (m : List (Nat × String)) (s : DbState)
    (hn : node a = none) :
    colorsLoop node (a :: rest) m s = (Except.error (DbError.rpcError a), s) := by
  show (match node a with
    | none => (Except.error (DbError.rpcError a), s)
    | some rb =>
      match rb.verbose_data with
      | none => colorsLoop node rest m s
      | some vd =>
        (DbM.bind (colorHashesLoop COLOR_BLUE vd.merge_set_blues_hashes m) (fun m1 =>
          DbM.bind (colorHashesLoop COLOR_RED vd.merge_set_reds_hashes m1) (fun m2 =>
            colorsLoop node rest m2))) s) = _
  rw [hn]

/-- Unfolding colorsLoop one added block: no verbose data, the block is
skipped. -/
theorem colorsLoop_cons_noverbose (node : String → Option RpcBlock) (a : String)
    (rest : List String) (m : List (Nat × String)) (s : DbState) (rb : RpcBlock)
    (hn : node a = some rb) (hvd : rb.verbose_data = none) :
    colorsLoop node (a :: rest) m s = colorsLoop node rest m s := by
  show (match node a with
    | none => (Except.error (DbError.rpcError a), s)
    | some rb =>
      match rb.verbose_data with
      | none => colorsLoop node rest m s
      | some vd =>
        (DbM.bind (colorHashesLoop COLOR_BLUE vd.merge_set_blues_hashes m) (fun m1 =>
          DbM.bind (colorHashesLoop COLOR_RED vd.merge_set_reds_hashes m1) (fun m2 =>
            colorsLoop node rest m2))) s) = _
  rw [hn]
  show (match rb.verbose_data with
    | none => colorsLoop node rest m s
    | some vd =>
      (DbM.bind (colorHashesLoop COLOR_BLUE vd.merge_set_blues_hashes m) (fun m1 =>
        DbM.bind (colorHashesLoop COLOR_RED vd.merge_set_reds_hashes m1) (fun m2 =>
          colorsLoop node rest m2))) s) = _
  rw [hvd]

/-- Unfolding colorsLoop one added block: verbose data present, paint the
merge set, blues then reds. -/
theorem colorsLoop_cons_verbose (node : String → Option RpcBlock) (a : String)
    (rest : List String) (m : List (Nat × String)) (s : DbState) (rb : RpcBlock)
    (vd : VerboseData) (hn : node a = some rb) (hvd : rb.verbose_data = some vd) :
    colorsLoop node (a :: rest) m s =
      (DbM.bind (colorHashesLoop COLOR_BLUE vd.merge_set_blues_hashes m) (fun m1 =>
        DbM.bind (colorHashesLoop COLOR_RED vd.merge_set_reds_hashes m1) (fun m2 =>
          colorsLoop node rest m2))) s := by
  show (match node a with
    | none => (Except.error (DbError.rpcError a), s)
    | some rb =>
      match rb.verbose_data with
      | none => colorsLoop node rest m s
      | some vd =>
        (DbM.bind (colorHashesLoop COLOR_BLUE vd.merge_set_blues_hashes m) (fun m1 =>
          DbM.bind (colorHashesLoop COLOR_RED vd.merge_set_reds_hashes m1) (fun m2 =>
            colorsLoop node rest m2))) s) = _
  rw [hn]
  show (match rb.verbose_data with
    | none => colorsLoop node rest m s
    | some vd =>
      (DbM.bind (colorHashesLoop COLOR_BLUE vd.merge_set_blues_hashes m) (fun m1 =>
        DbM.bind (colorHashesLoop COLOR_RED vd.merge_set_reds_hashes m1) (fun m2 =>
          colorsLoop node rest m2))) s) = _
  rw [hvd]

/-- Under a coherent cache, when the node answers for every listed added
block the color loop succeeds with exactly the pure collectColors map;
only the cache may change and it stays coherent. -/
theorem colorsLoop_spec (node : String → Option RpcBlock) :
    ∀ (as : List String) (m : List (Nat × String)) (s : DbState), CacheCoherent s →
    (∀ a ∈ as, node a ≠ none) →
    ∃ s2, colorsLoop node as m s =
        (Except.ok (collectColors s.store node as m), s2) ∧
      s2.store = s.store ∧ CacheCoherent s2 := by
  intro as
  induction as with
  | nil =>
    intro m s hc _
    exact ⟨s, rfl, rfl, hc⟩
  | cons a rest ih =>
    intro m s hc hnode
    have hnrest : ∀ x ∈ rest, node x ≠ none :=
      fun x hx => hnode x (List.mem_cons_of_mem a hx)
    rcases hn : node a with _ | rb
    · exact absurd hn (hnode a (List.mem_cons_self _ _))
    · rcases hvd : rb.verbose_data with _ | vd
      · obtain ⟨s2, hrun, hsst, hcc1⟩ := ih m s hc hnrest
        refine ⟨s2, ?_, hsst, hcc1⟩
        rw [colorsLoop_cons_noverbose node a rest m s rb hn hvd, hrun,
          collectColors_cons_noverbose s.store node a rest m rb hn hvd]
      · obtain ⟨sB, hrunB, hstB, hccB⟩ :=
          collectIdsLoop_spec COLOR_BLUE vd.merge_set_blues_hashes m s hc
        have hrunB2 : colorHashesLoop COLOR_BLUE vd.merge_set_blues_hashes m s =
            (Except.ok (collectIds s.store COLOR_BLUE vd.merge_set_blues_hashes m),
              sB) := hrunB
        obtain ⟨sR, hrunR, hstR, hccR⟩ :=
          collectIdsLoop_spec COLOR_RED vd.merge_set_reds_hashes
            (collectIds s.store COLOR_BLUE vd.merge_set_blues_hashes m) sB hccB
        rw [hstB] at hrunR hstR
        have hrunR2 : colorHashesLoop COLOR_RED vd.merge_set_reds_hashes
            (collectIds s.store COLOR_BLUE vd.merge_set_blues_hashes m) sB =
            (Except.ok (collectIds s.store COLOR_RED vd.merge_set_reds_hashes
              (collectIds s.store COLOR_BLUE vd.merge_set_blues_hashes m)),
              sR) := hrunR
        obtain ⟨s2, hrun1, hsst, hcc1⟩ :=
          ih (collectIds s.store COLOR_RED vd.merge_set_reds_hashes
            (collectIds s.store COLOR_BLUE vd.merge_set_blues_hashes m)) sR hccR hnrest
        rw [hstR] at hrun1 hsst
        refine ⟨s2, ?_, hsst, hcc1⟩
        rw [colorsLoop_cons_verbose node a rest m s rb vd hn hvd, DbM.bind, hrunB2]
        show DbM.bind (colorHashesLoop COLOR_RED vd.merge_set_reds_hashes
          (collectIds s.store COLOR_BLUE vd.merge_set_blues_hashes m))
          (fun m2 => colorsLoop node rest m2) sB = _
        rw [DbM.bind, hrunR2]
        show colorsLoop node rest (collectIds s.store COLOR_RED
          vd.merge_set_reds_hashes
          (collectIds s.store COLOR_BLUE vd.merge_set_blues_hashes m)) sR = _
        rw [hrun1, collectColors_cons_verbose s.store node a rest m rb vd hn hvd]

/-- The membership-flag map the handler builds: removed hashes first with
false, then added hashes with true, resolved against the store. -/
def vspcMap (st : Store) (notif : VirtualChainChangedNotification) :
    List (Nat × Bool) :=
  collectIds st true notif.added_chain_block_hashes
    (collectIds st false notif.removed_chain_block_hashes [])

/-- The color map the handler builds from the added chain blocks. -/
def colorMap (st : Store) (node : String → Option RpcBlock)
    (notif : VirtualChainChangedNotification) : List (Nat × String) :=
  collectColors st node notif.added_chain_block_hashes []

/-- What the handler does to one stored row: the membership-flag updates
followed by the color updates. -/
def rowAfter (st : Store) (node : String → Option RpcBlock)
    (notif : VirtualChainChangedNotification) (b : Block) : Block :=
  applyColors (colorMap st node notif) (applyVspc (vspcMap st notif) b)

theorem applyVspc_id (ps : List (Nat × Bool)) (b : Block) :
    (applyVspc ps b).id = b.id :=
  applyPairs_field (fun b v => { b with is_in_virtual_selected_parent_chain := v })
    Block.id (fun _ _ => rfl) ps b

theorem applyVspc_block_hash (ps : List (Nat × Bool)) (b : Block) :
    (applyVspc ps b).block_hash = b.block_hash :=
  applyPairs_field (fun b v => { b with is_in_virtual_selected_parent_chain := v })
    Block.block_hash (fun _ _ => rfl) ps b

theorem applyVspc_height (ps : List (Nat × Bool)) (b : Block) :
    (applyVspc ps b).height = b.height :=
  applyPairs_field (fun b v => { b with is_in_virtual_selected_parent_chain := v })
    Block.height (fun _ _ => rfl) ps b

theorem applyVspc_color (ps : List (Nat × Bool)) (b : Block) :
    (applyVspc ps b).color = b.color :=
  applyPairs_field (fun b v => { b with is_in_virtual_selected_parent_chain := v })
    Block.color (fun _ _ => rfl) ps b

theorem applyColors_id (ps : List (Nat × String)) (b : Block) :
    (applyColors ps b).id = b.id :=
  applyPairs_field (fun b v => { b with color := v }) Block.id (fun _ _ => rfl) ps b

theorem applyColors_block_hash (ps : List (Nat × String)) (b : Block) :
    (applyColors ps b).block_hash = b.block_hash :=
  applyPairs_field (fun b v => { b with color := v }) Block.block_hash
    (fun _ _ => rfl) ps b

theorem applyColors_height (ps : List (Nat × String)) (b : Block) :
    (applyColors ps b).height = b.height :=
  applyPairs_field (fun b v => { b with color := v }) Block.height
    (fun _ _ => rfl) ps b

theorem applyColors_vspc_flag (ps : List (Nat × String)) (b : Block) :
    (applyColors ps b).is_in_virtual_selected_parent_chain =
      b.is_in_virtual_selected_parent_chain :=
  applyPairs_field (fun b v => { b with color := v })
    Block.is_in_virtual_selected_parent_chain (fun _ _ => rfl) ps b

/-- What C4 states about one run of the virtual-chain handler: it
succeeds, touches only the blocks table, transforms every row by rowAfter,
and rowAfter realises the claimed per-row flag and color outcomes while
skipping unresolved hashes. -/
def C4Post (node : String → Option RpcBlock) (notif : VirtualChainChangedNotification)
    (s : DbState) : Prop :=
  ∃ s1 : DbState,
    process_virtual_chain_changed_notification node notif s = (Except.ok (), s1) ∧
    s1.store.blocks = s.store.blocks.map (rowAfter s.store node notif) ∧
    s1.store.edges = s.store.edges ∧
    s1.store.height_groups = s.store.height_groups ∧
    s1.store.app_config = s.store.app_config ∧
    ∀ b ∈ s.store.blocks,
      (rowAfter s.store node notif b).id = b.id ∧
      (rowAfter s.store node notif b).block_hash = b.block_hash ∧
      (rowAfter s.store node notif b).height = b.height ∧
      ((∃ h ∈ notif.added_chain_block_hashes, resolvesTo s.store h b.id) →
        (rowAfter s.store node notif b).is_in_virtual_selected_parent_chain = true) ∧
      ((∃ h ∈ notif.removed_chain_block_hashes, resolvesTo s.store h b.id) →
        (∀ h ∈ notif.added_chain_block_hashes, ¬resolvesTo s.store h b.id) →
        (rowAfter s.store node notif b).is_in_virtual_selected_parent_chain = false) ∧
      ((∀ h ∈ notif.removed_chain_block_hashes, ¬resolvesTo s.store h b.id) →
        (∀ h ∈ notif.added_chain_block_hashes, ¬resolvesTo s.store h b.id) →
        (rowAfter s.store node notif b).is_in_virtual_selected_parent_chain =
          b.is_in_virtual_selected_parent_chain) ∧
      (BlueFor s.store node notif.added_chain_block_hashes b.id →
        NoRedFor s.store node notif.added_chain_block_hashes b.id →
        (rowAfter s.store node notif b).color = COLOR_BLUE) ∧
      (RedFor s.store node notif.added_chain_block_hashes b.id →
        NoBlueFor s.store node notif.added_chain_block_hashes b.id →
        (rowAfter s.store node notif b).color = COLOR_RED) ∧
      (NoBlueFor s.store node notif.added_chain_block_hashes b.id →
        NoRedFor s.store node notif.added_chain_block_hashes b.id →
        (rowAfter s.store node notif b).color = b.color)

/-- C4: for every virtual-chain-changed notification, under a coherent
cache and with the node answering for every added chain block, the handler
succeeds and touches only the blocks table: is_in_virtual_selected_parent_chain
becomes false for every row some removed chain hash resolves to (unless an
added hash also resolves to it) and true for every row some added chain
hash resolves to; each row a resolvable merge-set-blues hash of an added
chain block names is painted blue and each row a resolvable merge-set-reds
hash names is painted red (when the two sets do not fight over the row);
rows named by no resolvable hash keep their flag and color, and unresolved
hashes are skipped without error. -/
theorem C4_virtual_chain_handler (node : String → Option RpcBlock)
    (notif : VirtualChainChangedNotification) (s : DbState)
    (hc : CacheCoherent s)
    (hnode : ∀ a ∈ notif.added_chain_block_hashes, node a ≠ none) :
    C4Post node notif s := by
  obtain ⟨sA, hrunA, hstA, hccA⟩ :=
    collectIdsLoop_spec false notif.removed_chain_block_hashes [] s hc
  obtain ⟨sB, hrunB, hstB, hccB⟩ :=
    collectIdsLoop_spec true notif.added_chain_block_hashes
      (collectIds s.store false notif.removed_chain_block_hashes []) sA hccA
  rw [hstA] at hrunB hstB
  have hrunA2 : vspcFlagLoop false notif.removed_chain_block_hashes [] s =
      (Except.ok (collectIds s.store false notif.removed_chain_block_hashes []), sA) :=
    hrunA
  have hrunB2 : vspcFlagLoop true notif.added_chain_block_hashes
      (collectIds s.store false notif.removed_chain_block_hashes []) sA =
      (Except.ok (vspcMap s.store notif), sB) := hrunB
  have hccB2 : CacheCoherent { store := s.store, cache := sB.cache } := by
    rw [← hstB]
    exact hccB
  have hccC := cacheCoherent_mapBlocks (applyVspc (vspcMap s.store notif))
    (applyVspc_block_hash _) (applyVspc_id _) (applyVspc_height _) hccB2
  have hrunU := update_vspc_run (vspcMap s.store notif) sB
  rw [hstB] at hrunU
  obtain ⟨sD, hrunD, hstD, hccD⟩ := colorsLoop_spec node
    notif.added_chain_block_hashes []
    { store := { s.store with
        blocks := s.store.blocks.map (applyVspc (vspcMap s.store notif)) },
      cache := sB.cache } hccC hnode
  have hrunD2 : colorsLoop node notif.added_chain_block_hashes []
      { store := { s.store with
          blocks := s.store.blocks.map (applyVspc (vspcMap s.store notif)) },
        cache := sB.cache } =
      (Except.ok (collectColors { s.store with
          blocks := s.store.blocks.map (applyVspc (vspcMap s.store notif)) } node
        notif.added_chain_block_hashes []), sD) := hrunD
  rw [collectColors_mapBlocks s.store (applyVspc (vspcMap s.store notif))
    (applyVspc_block_hash _) (applyVspc_id _) node
    notif.added_chain_block_hashes []] at hrunD2
  have hrunD3 : colorsLoop node notif.added_chain_block_hashes []
      { store := { s.store with
          blocks := s.store.blocks.map (applyVspc (vspcMap s.store notif)) },
        cache := sB.cache } =
      (Except.ok (colorMap s.store node notif), sD) := hrunD2
  have hrunE : update_block_colors (colorMap s.store node notif) sD =
      (Except.ok (),
        { store := { s.store with
            blocks := (s.store.blocks.map (applyVspc (vspcMap s.store notif))).map
              (applyColors (colorMap s.store node notif)) },
          cache := sD.cache }) := by
    have h0 := update_colors_run (colorMap s.store node notif) sD
    rw [hstD] at h0
    exact h0
  have hrunAll : process_virtual_chain_changed_notification node notif s =
      (Except.ok (),
        { store := { s.store with
            blocks := (s.store.blocks.map (applyVspc (vspcMap s.store notif))).map
              (applyColors (colorMap s.store node notif)) },
          cache := sD.cache }) := by
    show DbM.bind (vspcFlagLoop false notif.removed_chain_block_hashes [])
      (fun m0 => DbM.bind (vspcFlagLoop true notif.added_chain_block_hashes m0)
        (fun m1 => DbM.bind (update_block_is_in_virtual_selected_parent_chain m1)
          (fun _ => DbM.bind (colorsLoop node notif.added_chain_block_hashes [])
            (fun m2 => update_block_colors m2)))) s = _
    rw [DbM.bind, hrunA2]
    show DbM.bind (vspcFlagLoop true notif.added_chain_block_hashes
      (collectIds s.store false notif.removed_chain_block_hashes []))
      (fun m1 => DbM.bind (update_block_is_in_virtual_selected_parent_chain m1)
        (fun _ => DbM.bind (colorsLoop node notif.added_chain_block_hashes [])
          (fun m2 => update_block_colors m2))) sA = _
    rw [DbM.bind, hrunB2]
    show DbM.bind (update_block_is_in_virtual_selected_parent_chain
      (vspcMap s.store notif))
      (fun _ => DbM.bind (colorsLoop node notif.added_chain_block_hashes [])
        (fun m2 => update_block_colors m2)) sB = _
    rw [DbM.bind, hrunU]
    show DbM.bind (colorsLoop node notif.added_chain_block_hashes [])
      (fun m2 => update_block_colors m2)
      { store := { s.store with
          blocks := s.store.blocks.map (applyVspc (vspcMap s.store notif)) },
        cache := sB.cache } = _
    rw [DbM.bind, hrunD3]
    show update_block_colors (colorMap s.store node notif) sD = _
    exact hrunE
  have hndV : ((vspcMap s.store notif).map Prod.fst).Nodup :=
    collectIds_keys_nodup s.store true _ _
      (collectIds_keys_nodup s.store false _ _ List.nodup_nil)
  have hndC : ((colorMap s.store node notif).map Prod.fst).Nodup :=
    collectColors_keys_nodup s.store node _ _ List.nodup_nil
  refine ⟨_, hrunAll, ?_, rfl, rfl, rfl, ?_⟩
  · show (s.store.blocks.map (applyVspc (vspcMap s.store notif))).map
      (applyColors (colorMap s.store node notif)) =
      s.store.blocks.map (rowAfter s.store node notif)
    rw [List.map_map]
    rfl
  · intro b _
    refine ⟨?_, ?_, ?_, ?_, ?_, ?_, ?_, ?_, ?_⟩
    · show (applyColors (colorMap s.store node notif)
        (applyVspc (vspcMap s.store notif) b)).id = b.id
      rw [applyColors_id, applyVspc_id]
    · show (applyColors (colorMap s.store node notif)
        (applyVspc (vspcMap s.store notif) b)).block_hash = b.block_hash
      rw [applyColors_block_hash, applyVspc_block_hash]
    · show (applyColors (colorMap s.store node notif)
        (applyVspc (vspcMap s.store notif) b)).height = b.height
      rw [applyColors_height, applyVspc_height]
    · intro hadd
      have hm1 : hmLookup (vspcMap s.store notif) b.id = some true :=
        collectIds_establish s.store true notif.added_chain_block_hashes _ b.id hadd
      have hv : applyVspc (vspcMap s.store notif) b =
          { b with is_in_virtual_selected_parent_chain := true } :=
        applyPairs_lookup_some
          (fun b v => { b with is_in_virtual_selected_parent_chain := v })
          (fun _ _ => rfl) _ hndV b true hm1
      show (applyColors (colorMap s.store node notif)
        (applyVspc (vspcMap s.store notif) b)).is_in_virtual_selected_parent_chain =
        true
      rw [applyColors_vspc_flag, hv]
    · intro hrem hnadd
      have hm0 : hmLookup (collectIds s.store false
          notif.removed_chain_block_hashes []) b.id = some false :=
        collectIds_establish s.store false notif.removed_chain_block_hashes [] b.id
          hrem
      have hm1 : hmLookup (vspcMap s.store notif) b.id = some false := by
        show hmLookup (collectIds s.store true notif.added_chain_block_hashes
          (collectIds s.store false notif.removed_chain_block_hashes [])) b.id =
          some false
        rw [collectIds_skip s.store true notif.added_chain_block_hashes _ b.id hnadd]
        exact hm0
      have hv : applyVspc (vspcMap s.store notif) b =
          { b with is_in_virtual_selected_parent_chain := false } :=
        applyPairs_lookup_some
          (fun b v => { b with is_in_virtual_selected_parent_chain := v })
          (fun _ _ => rfl) _ hndV b false hm1
      show (applyColors (colorMap s.store node notif)
        (applyVspc (vspcMap s.store notif) b)).is_in_virtual_selected_parent_chain =
        false
      rw [applyColors_vspc_flag, hv]
    · intro hnrem hnadd
      have hm1 : hmLookup (vspcMap s.store notif) b.id = none := by
        show hmLookup (collectIds s.store true notif.added_chain_block_hashes
          (collectIds s.store false notif.removed_chain_block_hashes [])) b.id = none
        rw [collectIds_skip s.store true notif.added_chain_block_hashes _ b.id hnadd,
          collectIds_skip s.store false notif.removed_chain_block_hashes [] b.id
            hnrem]
        rfl
      have hv : applyVspc (vspcMap s.store notif) b = b :=
        applyPairs_lookup_none
          (fun b v => { b with is_in_virtual_selected_parent_chain := v }) _ b hm1
      show (applyColors (colorMap s.store node notif)
        (applyVspc (vspcMap s.store notif) b)).is_in_virtual_selected_parent_chain =
        b.is_in_virtual_selected_parent_chain
      rw [applyColors_vspc_flag, hv]
    · intro hblue hnored
      have hm2 : hmLookup (colorMap s.store node notif) b.id = some COLOR_BLUE :=
        collectColors_blue s.store node notif.added_chain_block_hashes [] b.id hblue
          hnored
      have hb2 : hmLookup (colorMap s.store node notif)
          (applyVspc (vspcMap s.store notif) b).id = some COLOR_BLUE := by
        rw [applyVspc_id]
        exact hm2
      have hcol : applyColors (colorMap s.store node notif)
          (applyVspc (vspcMap s.store notif) b) =
          { applyVspc (vspcMap s.store notif) b with color := COLOR_BLUE } :=
        applyPairs_lookup_some (fun b v => { b with color := v }) (fun _ _ => rfl) _
          hndC _ COLOR_BLUE hb2
      show (applyColors (colorMap s.store node notif)
        (applyVspc (vspcMap s.store notif) b)).color = COLOR_BLUE
      rw [hcol]
    · intro hred hnoblue
      have hm2 : hmLookup (colorMap s.store node notif) b.id = some COLOR_RED :=
        collectColors_red s.store node notif.added_chain_block_hashes [] b.id hred
          hnoblue
      have hb2 : hmLookup (colorMap s.store node notif)
          (applyVspc (vspcMap s.store notif) b).id = some COLOR_RED := by
        rw [applyVspc_id]
        exact hm2
      have hcol : applyColors (colorMap s.store node notif)
          (applyVspc (vspcMap s.store notif) b) =
          { applyVspc (vspcMap s.store notif) b with color := COLOR_RED } :=
        applyPairs_lookup_some (fun b v => { b with color := v }) (fun _ _ => rfl) _
          hndC _ COLOR_RED hb2
      show (applyColors (colorMap s.store node notif)
        (applyVspc (vspcMap s.store notif) b)).color = COLOR_RED
      rw [hcol]
    · intro hnb hnr
      have hm2 : hmLookup (colorMap s.store node notif) b.id = none := by
        show hmLookup (collectColors s.store node
          notif.added_chain_block_hashes []) b.id = none
        rw [collectColors_skip s.store node notif.added_chain_block_hashes [] b.id
          hnb hnr]
        rfl
      have hb2 : hmLookup (colorMap s.store node notif)
          (applyVspc (vspcMap s.store notif) b).id = none := by
        rw [applyVspc_id]
        exact hm2
      have hcol : applyColors (colorMap s.store node notif)
          (applyVspc (vspcMap s.store notif) b) =
          applyVspc (vspcMap s.store notif) b :=
        applyPairs_lookup_none (fun b v => { b with color := v }) _ _ hb2
      show (applyColors (colorMap s.store node notif)
        (applyVspc (vspcMap s.store notif) b)).color = b.color
      rw [hcol, applyVspc_color]

/-- Concrete store for the C4 witness: rows a, b, c, d with ids 1 to 4. -/
def c4Store : Store :=
  { blocks := [mkRow 1 "a" 0, mkRow 2 "b" 1, mkRow 3 "c" 1, mkRow 4 "d" 1],
    next_id := 5, edges := [], height_groups := [], app_config := none }

/-- Concrete notification for the C4 witness: one resolvable and one
unresolvable hash on each side. -/
def c4Notif : VirtualChainChangedNotification :=
  { removed_chain_block_hashes := ["a", "zz"],
    added_chain_block_hashes := ["b", "x"] }

/-- Node responses for the C4 witness: added block b carries verbose data
painting c blue ("nope" does not resolve) and d red; added block x has no
verbose data. -/
def c4Node : String → Option RpcBlock :=
  fun h =>
    if h = "b" then
      some
        { hash := "b", timestamp := 0, daa_score := 0, parents := [],
          verbose_data := some
            { selected_parent_hash := "a", merge_set_blues_hashes := ["c", "nope"],
              merge_set_reds_hashes := ["d"], is_header_only := false } }
    else if h = "x" then
      some
        { hash := "x", timestamp := 0, daa_score := 0, parents := [],
          verbose_data := none }
    else none

/-- Witness for C4 at a concrete store, notification and node. -/
theorem C4_witness :
    CacheCoherent { store := c4Store, cache := [] } ∧
    (∀ a ∈ c4Notif.added_chain_block_hashes, c4Node a ≠ none) ∧
    C4Post c4Node c4Notif { store := c4Store, cache := [] } :=
  ⟨cacheCoherent_nil c4Store, by decide,
    C4_virtual_chain_handler c4Node c4Notif { store := c4Store, cache := [] }
      (cacheCoherent_nil c4Store) (by decide)⟩

end TGI
